import Mathlib

/-!
Verification development for the `concise` NetCDF granule merger
(`podaac/merger`).  The definitions below are a shallow embedding of the
Python source: Python attribute values become `PyVal`, Python dicts become
insertion-ordered association lists (`PyDict`), NetCDF groups become a tree
(`NcGroup`), numpy N-dimensional arrays become `Tensor`, and every fallible
code path returns `Except Err`.  Each definition cites the source function
it embeds.
-/

namespace Concise

/-! ## Python scalar and attribute values -/

/-- Scalar values that can appear as Python attribute values or as numpy
array elements: `None`, `bool`, `int`, `float` (rationals plus an explicit
NaN), `str`. -/
inductive PyScalar where
  | pNone : PyScalar
  | pBool : Bool → PyScalar
  | pInt : Int → PyScalar
  | pFloat : Rat → PyScalar
  | pNaN : PyScalar
  | pStr : String → PyScalar
  deriving DecidableEq, Repr

/-- A Python value as stored in a NetCDF attribute: either a scalar or a
numpy `ndarray`, which is faithfully a shape together with a flat
(C-ordered) element buffer. -/
inductive PyVal where
  | scalar : PyScalar → PyVal
  | ndarray : List Nat → List PyScalar → PyVal
  deriving DecidableEq, Repr

/-- The Python dynamic type tag of a value, as observed by `type(x)`. -/
inductive PyType where
  | tNone | tBool | tInt | tFloat | tStr | tNdarray
  deriving DecidableEq, Repr

/-- `type(v)` for an attribute value.  `pNaN` is a `float`. -/
def pyTypeOf : PyVal → PyType
  | .scalar .pNone => .tNone
  | .scalar (.pBool _) => .tBool
  | .scalar (.pInt _) => .tInt
  | .scalar (.pFloat _) => .tFloat
  | .scalar .pNaN => .tFloat
  | .scalar (.pStr _) => .tStr
  | .ndarray _ _ => .tNdarray

def PyVal.isNdarray : PyVal → Bool
  | .ndarray _ _ => true
  | _ => false

/-- Numeric interpretation of a scalar, used by Python/numpy `==`:
booleans coerce to 0/1, ints and floats compare by value, NaN is not
numeric-comparable (it equals nothing). -/
def PyScalar.toNum : PyScalar → Option Rat
  | .pBool b => some (if b then 1 else 0)
  | .pInt n => some (n : Rat)
  | .pFloat q => some q
  | _ => none

/-- Elementwise equality of numpy array elements (`==` semantics):
numeric values compare by value across types, everything else compares
structurally, and NaN equals nothing. -/
def npScalarEq (a b : PyScalar) : Bool :=
  match a.toNum, b.toNum with
  | some x, some y => x == y
  | _, _ => a == b && a != .pNaN

/-- `np.asarray`: a scalar becomes a 0-d array (shape `[]`, one element),
an ndarray stays itself. -/
def asarray : PyVal → List Nat × List PyScalar
  | .scalar s => ([], [s])
  | .ndarray sh d => (sh, d)

/-- `np.array_equal(a, b)` (with `equal_nan=False`): coerce both operands
with `asarray`, then require equal shapes and elementwise equality. -/
def array_equal (a b : PyVal) : Bool :=
  let x := asarray a
  let y := asarray b
  x.1 == y.1 && (x.2.zip y.2).all fun p => npScalarEq p.1 p.2

/-- Python `==` on two non-array values of the same dynamic type:
structural equality except that NaN is unequal to itself. -/
def pySameTypeEq (a b : PyVal) : Bool :=
  a == b && a != .scalar .pNaN

/-- Embeds `preprocess_worker.attr_eq`: if either value is an ndarray,
compare with `np.array_equal`; otherwise unequal unless both the dynamic
type and the value match. -/
def attr_eq (attr_1 attr_2 : PyVal) : Bool :=
  if attr_1.isNdarray || attr_2.isNdarray then
    array_equal attr_1 attr_2
  else if pyTypeOf attr_1 != pyTypeOf attr_2 || !pySameTypeEq attr_1 attr_2 then
    false
  else
    true

/-! ## Python dictionaries

Python dicts preserve insertion order: updating an existing key keeps its
position, inserting a new key appends it.  We model them as association
lists with exactly those operations. -/

/-- Insertion-ordered Python dictionary with string keys. -/
abbrev PyDict (α : Type) := List (String × α)

/-- `d[k]` as an option (first matching entry). -/
def dlookup (k : String) : PyDict α → Option α
  | [] => none
  | (k', v) :: t => if k' = k then some v else dlookup k t

/-- `k in d`. -/
def dmem (k : String) (d : PyDict α) : Bool :=
  (dlookup k d).isSome

/-- `d[k] = v`: update the key's entry in place when it exists, append a
new entry otherwise. -/
def dset (k : String) (v : α) : PyDict α → PyDict α
  | [] => [(k, v)]
  | p :: t => if p.1 = k then (k, v) :: t else p :: dset k v t

/-- `del d[k]` (the key is assumed present; absence is handled by callers
that model the `KeyError`). -/
def ddel (k : String) (d : PyDict α) : PyDict α :=
  d.filter fun p => p.1 ≠ k

/-- `list(d)`: the keys in insertion order. -/
def dkeys (d : PyDict α) : List String :=
  d.map Prod.fst

/-- The dictionary invariant: one entry per key. -/
def NodupKeys (d : PyDict α) : Prop :=
  (dkeys d).Nodup

instance nodupKeysDecidable (d : PyDict α) : Decidable (NodupKeys d) :=
  inferInstanceAs (Decidable (dkeys d).Nodup)

/-! ## Errors

Python exceptions raised by the merger, as structured error values. -/

inductive Err where
  | keyError : String → Err
  | indexError : Err
  | typeError : Err
  | valueError : Err
  | runtimeError : String → Err
  deriving DecidableEq, Repr

/-! ## numpy N-dimensional arrays -/

/-- A numpy N-dimensional array over elements `α`: a scalar (0-d array) or
a list of subarrays along the outermost axis. -/
inductive Tensor (α : Type) where
  | scalar : α → Tensor α
  | cells : List (Tensor α) → Tensor α

/-- `np.full(shape, fill)`: the array of the given shape with every cell
equal to `fill`. -/
def constTensor (fill : α) : List Nat → Tensor α
  | [] => .scalar fill
  | n :: ns => .cells (List.replicate n (constTensor fill ns))

/-- Element access `t[i1, ..., ik]`; `none` when the index does not match
the array's structure. -/
def Tensor.get : List Nat → Tensor α → Option α
  | [], .scalar a => some a
  | i :: is, .cells cs => (cs[i]?).bind (Tensor.get is)
  | _, _ => none

/-- The array fills the given shape exactly. -/
def Tensor.hasShape : List Nat → Tensor α → Bool
  | [], .scalar _ => true
  | n :: ns, .cells cs => cs.length == n && cs.all (Tensor.hasShape ns)
  | _, _ => false

/-- `np.pad(t, [[0,w1],...,[0,wk]], mode='constant', constant_values=fill)`
for an array of actual shape `[s1,...,sk]`: each axis is extended on the
high side only, by appending constant-filled blocks of the padded inner
shape; existing cells are padded recursively. -/
def padHigh (fill : α) : List Nat → List Nat → Tensor α → Tensor α
  | [], _, t => t
  | _ :: _, [], t => t
  | _ :: ss, w :: ws, .cells cs =>
      .cells (cs.map (padHigh fill ss ws) ++
        List.replicate w (constTensor fill (List.zipWith (· + ·) ss ws)))
  | _ :: _, _ :: _, .scalar a => .scalar a

/-! ## NetCDF data model

A granule is a tree of groups; each group carries its full Unix-like path,
a dimension table, variables, and attributes (`spec` §3; mirrors the
netCDF4 object model the source traverses). -/

/-- A NetCDF variable: name, ordered dimension names, the actual per-axis
sizes in this granule, a datatype (modelled as its name), attributes, and
the payload. -/
structure NcVar where
  name : String
  dimOrder : List String
  shape : List Nat
  datatype : String
  attrs : PyDict PyVal
  data : Tensor PyScalar

/-- `var.size`: total element count. -/
def NcVar.size (v : NcVar) : Nat := v.shape.prod

mutual
/-- A NetCDF group: full path, dimensions (name → size), variables,
attributes, child groups. -/
inductive NcGroup where
  | mk : String → PyDict Nat → List NcVar → PyDict PyVal → NcForest → NcGroup
/-- The ordered list of child groups. -/
inductive NcForest where
  | nil : NcForest
  | cons : NcGroup → NcForest → NcForest
end

def NcGroup.path : NcGroup → String
  | .mk p _ _ _ _ => p

def NcGroup.dims : NcGroup → PyDict Nat
  | .mk _ d _ _ _ => d

def NcGroup.vars : NcGroup → List NcVar
  | .mk _ _ v _ _ => v

def NcGroup.attrs : NcGroup → PyDict PyVal
  | .mk _ _ _ a _ => a

def NcGroup.children : NcGroup → NcForest
  | .mk _ _ _ _ c => c

/-! ## Character-level string helpers

Python's `str.split`, `str.join`, `str.replace` and `in`, implemented over
the underlying character lists (so concrete instances evaluate inside the
kernel). -/

/-- `s.split('/')` on the character list. -/
def splitSlashChars : List Char → List (List Char)
  | [] => [[]]
  | c :: rest =>
    let r := splitSlashChars rest
    if c = '/' then [] :: r
    else
      match r with
      | [] => [[c]]
      | h :: t => (c :: h) :: t

/-- `s.split('/')`. -/
def splitSlash (s : String) : List String :=
  (splitSlashChars s.data).map fun cs => String.mk cs

/-- `'/'.join(parts)`. -/
def joinSlash : List String → String
  | [] => ""
  | [s] => s
  | s :: rest => s ++ "/" ++ joinSlash rest

/-- `'/' in s`. -/
def hasSlash (s : String) : Bool :=
  s.data.any fun c => c = '/'

/-- `s.replace('/', '_')` (single-character pattern). -/
def escapeSlash (s : String) : String :=
  String.mk (s.data.map fun c => if c = '/' then '_' else c)

/-- Code-point comparison of strings, as Python's `<=` on `str`. -/
def charListLe : List Char → List Char → Bool
  | [], _ => true
  | _ :: _, [] => false
  | c :: cs, d :: ds =>
    if c.toNat < d.toNat then true
    else if d.toNat < c.toNat then false
    else charListLe cs ds

def strLeB (a b : String) : Bool := charListLe a.data b.data

instance exceptDecEq {ε α : Type} [DecidableEq ε] [DecidableEq α] :
    DecidableEq (Except ε α) := fun a b =>
  match a, b with
  | .error e, .error f =>
    if h : e = f then .isTrue (by rw [h])
    else .isFalse fun hh => h (by cases hh; rfl)
  | .ok x, .ok y =>
    if h : x = y then .isTrue (by rw [h])
    else .isFalse fun hh => h (by cases hh; rfl)
  | .error _, .ok _ => .isFalse fun hh => Except.noConfusion hh
  | .ok _, .error _ => .isFalse fun hh => Except.noConfusion hh

/-! ## Path utilities (`path_utils.py`) -/

/-- `get_group_path(group, resource)` (path_utils.py lines 7-27): `"/" +
resource` at the root, else `group.path + "/" + resource`. -/
def get_group_path (groupPath resource : String) : String :=
  if groupPath = "/" then "/" ++ resource
  else groupPath ++ "/" ++ resource

/-- `resolve_dim(dims, group_path, dim_name)` (path_utils.py lines 56-83):
try `"/".join(group_tree[:i]) + "/" + dim_name` for `i` from the full
depth down to 1, then the bare `dim_name`; a miss everywhere is a
`KeyError`. -/
def resolve_dim (dims : PyDict Nat) (group_path dim_name : String) : Except Err Nat :=
  let group_tree := splitSlash group_path
  let cands := (List.range group_tree.length).reverse.map
    (fun j => joinSlash (group_tree.take (j + 1)) ++ "/" ++ dim_name)
  match cands.findSome? (fun p => dlookup p dims) with
  | some v => .ok v
  | none =>
    match dlookup dim_name dims with
    | some v => .ok v
    | none => .error (.keyError dim_name)

mutual
/-- Locate the (sub)group with the given full path, as netCDF4's
`dataset[path]` does by walking the components. -/
def findGroup (g : NcGroup) (p : String) : Option NcGroup :=
  match g with
  | .mk path _ _ _ children =>
    if path = p then some g else findForest children p
def findForest : NcForest → String → Option NcGroup
  | .nil, _ => none
  | .cons g rest, p =>
    match findGroup g p with
    | some r => some r
    | none => findForest rest p
end

/-- `resolve_group(dataset, path)` (path_utils.py lines 30-53): split the
path at the last `/`; navigate to the containing group (an unknown group
is netCDF4's `IndexError`); return the group and the leaf name. -/
def resolve_group (dataset : NcGroup) (path : String) : Except Err (NcGroup × String) :=
  let parts := splitSlash path
  let pre := joinSlash parts.dropLast
  let leaf := parts.getLastD ""
  if pre.length = 0 then .ok (dataset, leaf)
  else
    match findGroup dataset pre with
    | some g => .ok (g, leaf)
    | none => .error .indexError

/-! ## Variable descriptor (`variable_info.py`) -/

/-- The immutable per-variable descriptor built during preprocessing. -/
structure VariableInfo where
  name : String
  dim_order : List String
  datatype : String
  group_path : String
  fill_value : Option PyVal
  deriving DecidableEq, Repr

/-- `VariableInfo.__init__` (variable_info.py lines 24-37): the fill value
comes from the `_FillValue` attribute when present, else `missing_value`
when present, else `None`. -/
def VariableInfo.build (v : NcVar) (group_path : String) : VariableInfo :=
  { name := v.name
    dim_order := v.dimOrder
    datatype := v.datatype
    group_path := group_path
    fill_value :=
      match dlookup "_FillValue" v.attrs with
      | some fv => some fv
      | none => dlookup "missing_value" v.attrs }

/-- Elementwise equality with `equal_nan=True`: as `npScalarEq` but NaN
equals NaN. -/
def npScalarEqNan (a b : PyScalar) : Bool :=
  if a = .pNaN && b = .pNaN then true else npScalarEq a b

/-- `np.array_equal(a, b, equal_nan=True)`. -/
def array_equal_nan (a b : PyVal) : Bool :=
  let x := asarray a
  let y := asarray b
  x.1 == y.1 && (x.2.zip y.2).all fun p => npScalarEqNan p.1 p.2

/-- Python `==` between two scalar values (numeric cross-type equality,
NaN unequal to everything, `None == None`). -/
def pyScalarPyEq (a b : PyScalar) : Bool :=
  match a.toNum, b.toNum with
  | some x, some y => x == y
  | _, _ => a == b && a != .pNaN

/-- `fill_value == other.fill_value or np.array_equal(..., equal_nan=True)`
as in `VariableInfo.__eq__`; both fills absent (`None`) are equal. -/
def viFillEq (a b : Option PyVal) : Bool :=
  match a, b with
  | none, none => true
  | some (.scalar x), some (.scalar y) => pyScalarPyEq x y || array_equal_nan (.scalar x) (.scalar y)
  | some x, some y => array_equal_nan x y
  | _, _ => false

/-- `VariableInfo.__eq__` (variable_info.py lines 48-58). -/
def viEq (a b : VariableInfo) : Bool :=
  a.dim_order == b.dim_order && a.datatype == b.datatype && a.name == b.name &&
    viFillEq a.fill_value b.fill_value && a.group_path == b.group_path

/-! ## Preprocess engine (`preprocess_worker.py`) -/

/-- The mutable aggregation state threaded through `process_groups`. -/
structure PPState where
  groupList : List String
  maxDims : PyDict Nat
  groupMetadata : PyDict (PyDict PyVal)
  varMetadata : PyDict (PyDict PyVal)
  varInfo : PyDict VariableInfo

def emptyPPState : PPState :=
  { groupList := [], maxDims := [], groupMetadata := [], varMetadata := [], varInfo := [] }

/-- `get_max_dims` (preprocess_worker.py lines 349-366): record each
dimension's size under its group path, keeping the largest seen. -/
def get_max_dims (groupPath : String) (dims : PyDict Nat) (max_dims : PyDict Nat) : PyDict Nat :=
  dims.foldl
    (fun md p =>
      let dim_path := get_group_path groupPath p.1
      match dlookup dim_path md with
      | none => dset dim_path p.2 md
      | some cur => if cur < p.2 then dset dim_path p.2 md else md)
    max_dims

/-- `get_metadata` (preprocess_worker.py lines 369-387): first value wins;
a later value that is not `attr_eq`-equal marks the entry inconsistent by
storing Boolean `False`. -/
def get_metadata (attrs : PyDict PyVal) (metadata : PyDict PyVal) : PyDict PyVal :=
  attrs.foldl
    (fun md p =>
      match dlookup p.1 md with
      | none => dset p.1 p.2 md
      | some cur => if attr_eq cur p.2 then md else dset p.1 (.scalar (.pBool false)) md)
    metadata

/-- The `var_info` update of `get_variable_data` (preprocess_worker.py
lines 432-436): store a new path's descriptor; on a revisit require
descriptor equality, else `RuntimeError('Inconsistent variable schemas')`. -/
def viCheck (var_path : String) (info : VariableInfo) (vi : PyDict VariableInfo) :
    Except Err (PyDict VariableInfo) :=
  match dlookup var_path vi with
  | none => pure (dset var_path info vi)
  | some prev =>
    if viEq prev info then pure vi
    else Except.error (Err.runtimeError "Inconsistent variable schemas")

/-- `get_variable_data` (preprocess_worker.py lines 412-443): build a
`VariableInfo` per variable, check it against `var_info` (`viCheck`), and
merge the variable's attributes. -/
def get_variable_data (groupPath : String) (vars : List NcVar)
    (st : PyDict VariableInfo × PyDict (PyDict PyVal)) :
    Except Err (PyDict VariableInfo × PyDict (PyDict PyVal)) :=
  vars.foldlM
    (fun st v => do
      let info := VariableInfo.build v groupPath
      let var_path := get_group_path groupPath v.name
      let vi ← viCheck var_path info st.1
      let cur := (dlookup var_path st.2).getD []
      pure (vi, dset var_path (get_metadata v.attrs cur) st.2))
    st

mutual
/-- `process_groups` (preprocess_worker.py lines 315-346): visit a group —
metadata-table entry, group list, dimensions, attributes, variables — then
recurse into each child group. -/
def process_groups (g : NcGroup) (st : PPState) : Except Err PPState :=
  match g with
  | .mk path dims vars attrs children => do
    let gmd0 := if dmem path st.groupMetadata then st.groupMetadata else dset path [] st.groupMetadata
    let gl := if path ∈ st.groupList then st.groupList else st.groupList ++ [path]
    let md := get_max_dims path dims st.maxDims
    let gmd := dset path (get_metadata attrs ((dlookup path gmd0).getD [])) gmd0
    let vd ← get_variable_data path vars (st.varInfo, st.varMetadata)
    process_forest children
      { groupList := gl, maxDims := md, groupMetadata := gmd,
        varMetadata := vd.2, varInfo := vd.1 }
def process_forest (f : NcForest) (st : PPState) : Except Err PPState :=
  match f with
  | .nil => pure st
  | .cons g rest => do
    let st' ← process_groups g st
    process_forest rest st'
end

/-- The shared per-granule loop of `_run_single_core` (lines 148-152) and
`_run_worker` (lines 290-300): process every granule into one state. -/
def processFiles (files : List NcGroup) : Except Err PPState :=
  files.foldlM (fun st f => process_groups f st) emptyPPState

/-- `group_list.sort()`: Python's stable sort on strings. -/
def strSort (l : List String) : List String :=
  List.insertionSort (fun a b => strLeB a b) l

/-- Modelled abstractly: the serialized `history_json` attribute written at
the end of preprocessing (`json.dumps` of the accumulated history entries
plus a freshly timestamped `construct_history` entry).  Its text is
wall-clock dependent and plays no role in the claims below, so it is a
fixed marker string. -/
def historyMarker : PyVal := .scalar (.pStr "history_json")

/-- `group_metadata[group_list[0]]['history_json'] = json.dumps(...)`
(preprocess_worker.py lines 157-160 and 252-255): index the first group
path (`IndexError` on an empty list), then store the serialized history
under that group's attributes. -/
def finalizeHistory (group_list : List String) (gmd : PyDict (PyDict PyVal)) :
    Except Err (PyDict (PyDict PyVal)) :=
  match group_list.head? with
  | none => .error .indexError
  | some root =>
    match dlookup root gmd with
    | none => .error (.keyError root)
    | some attrs => .ok (dset root (dset "history_json" historyMarker attrs) gmd)

/-- The unified schema returned by preprocessing (`history_json` is folded
into `group_metadata` by `finalizeHistory`). -/
structure PPResult where
  group_list : List String
  max_dims : PyDict Nat
  var_info : PyDict VariableInfo
  var_metadata : PyDict (PyDict PyVal)
  group_metadata : PyDict (PyDict PyVal)
  deriving DecidableEq, Repr

/-- `_run_single_core` (preprocess_worker.py lines 127-168). -/
def runSingleCore (files : List NcGroup) : Except Err PPResult := do
  let st ← processFiles files
  let gl := strSort st.groupList
  let gmd ← finalizeHistory gl st.groupMetadata
  pure { group_list := gl, max_dims := st.maxDims, var_info := st.varInfo,
         var_metadata := st.varMetadata, group_metadata := gmd }

/-- A worker's appended result (`_run_worker`, lines 266-312); the
per-granule `history_json` list is abstracted away (see `historyMarker`). -/
structure WorkerResult where
  group_list : List String
  max_dims : PyDict Nat
  var_info : PyDict VariableInfo
  var_metadata : PyDict (PyDict PyVal)
  group_metadata : PyDict (PyDict PyVal)
  deriving DecidableEq, Repr

/-- `_run_worker` (preprocess_worker.py lines 266-312): drain the given
files, sort the local group list, and append a result only when at least
one granule was processed. -/
def runWorkerPre (files : List NcGroup) : Except Err (Option WorkerResult) := do
  let st ← processFiles files
  if files.isEmpty then pure none
  else
    pure (some { group_list := strSort st.groupList, max_dims := st.maxDims,
                 var_info := st.varInfo, var_metadata := st.varMetadata,
                 group_metadata := st.groupMetadata })

/-- `merge_max_dims` (preprocess_worker.py lines 36-51): per-key maximum,
updating only when the key is new or the new size is strictly larger. -/
def merge_max_dims (merged subset : PyDict Nat) : PyDict Nat :=
  subset.foldl
    (fun m p =>
      match dlookup p.1 m with
      | none => dset p.1 p.2 m
      | some cur => if cur < p.2 then dset p.1 p.2 m else m)
    merged

/-- `merge_metadata` (preprocess_worker.py lines 54-76): per path, merge
the worker's attribute dict with the first-wins / inconsistency rule
(the inner loop coincides with `get_metadata`). -/
def merge_metadata (merged subset : PyDict (PyDict PyVal)) : PyDict (PyDict PyVal) :=
  subset.foldl
    (fun m p =>
      let cur := (dlookup p.1 m).getD []
      dset p.1 (get_metadata p.2 cur) m)
    merged

/-- Python `dict.__eq__` on `var_info` maps: same key set, `VariableInfo`
values equal under `VariableInfo.__eq__`. -/
def dictEqVI (d1 d2 : PyDict VariableInfo) : Bool :=
  (d1.all fun p =>
    match dlookup p.1 d2 with
    | some w => viEq p.2 w
    | none => false) &&
  (d2.all fun p => dmem p.1 d1)

/-- Python `dict.update`: existing keys updated in place, new keys
appended in the other dict's order. -/
def dupdate (d1 d2 : PyDict α) : PyDict α :=
  d2.foldl (fun m p => dset p.1 p.2 m) d1

/-- The `var_info` accumulation step of `_run_multi_core` (lines 231-241):
adopt the first result; on a mismatch, only when the accumulator has keys
the result lacks, compare the intersection (`RuntimeError` on a value
mismatch) and take the union; otherwise the result is silently ignored. -/
def mergeVarInfoStep (acc : Option (PyDict VariableInfo)) (res : PyDict VariableInfo) :
    Except Err (Option (PyDict VariableInfo)) :=
  match acc with
  | none => .ok (some res)
  | some vi =>
    if dictEqVI vi res then .ok (some vi)
    else if (dkeys vi).any fun k => !dmem k res then
      if (dkeys vi).all fun k =>
          match dlookup k res, dlookup k vi with
          | some w, some v => viEq v w
          | _, _ => true then
        .ok (some (dupdate vi res))
      else .error (.runtimeError "Variable schemas are inconsistent between granules")
    else .ok (some vi)

/-- The coordinator's accumulator over worker results
(`_run_multi_core`, lines 215-220). -/
structure MergeAcc where
  gl : Option (List String)
  vi : Option (PyDict VariableInfo)
  md : PyDict Nat
  vmd : PyDict (PyDict PyVal)
  gmd : PyDict (PyDict PyVal)

/-- One iteration of the result-merging loop of `_run_multi_core`
(lines 222-249). -/
def mergeResultStep (acc : MergeAcc) (r : WorkerResult) : Except Err MergeAcc := do
  let gl ←
    match acc.gl with
    | none => pure (some r.group_list)
    | some gl =>
      if gl = r.group_list then pure (some gl)
      else Except.error (Err.runtimeError "Groups are inconsistent between granules")
  let vi ← mergeVarInfoStep acc.vi r.var_info
  pure { gl := gl, vi := vi, md := merge_max_dims acc.md r.max_dims,
         vmd := merge_metadata acc.vmd r.var_metadata,
         gmd := merge_metadata acc.gmd r.group_metadata }

/-- `_run_multi_core` (preprocess_worker.py lines 171-263).  The
nondeterministic draining of the input queue is modelled by the
`partition` argument: the ordered list of files each worker processed.  A
worker exception becomes the coordinator's
`RuntimeError('Preprocessing failed - exit code: ...')`; then worker
results are merged; `group_list` staying `None` (no results) makes the
final `group_list[0]` a `TypeError`. -/
def runMultiCore (partition : List (List NcGroup)) : Except Err PPResult := do
  let results0 ←
    match partition.mapM runWorkerPre with
    | .error _ => Except.error (Err.runtimeError "Preprocessing failed - exit code: 1")
    | .ok rs => pure rs
  let results := results0.filterMap id
  let acc ← results.foldlM mergeResultStep
    { gl := none, vi := none, md := [], vmd := [], gmd := [] }
  match acc.gl with
  | none => .error .typeError
  | some gl => do
    let gmd ← finalizeHistory gl acc.gmd
    pure { group_list := gl, max_dims := acc.md, var_info := (acc.vi).getD [],
           var_metadata := acc.vmd, group_metadata := gmd }

/-! ## Emptiness filter and merge entrypoint (`merge.py`) -/

/-- `is_file_empty` (merge.py lines 14-24), exactly as written: check this
group's variables, then `return` from inside the loop over child groups —
so only the first child subtree is ever inspected. -/
def is_file_empty : NcGroup → Bool
  | .mk _ _ vars _ children =>
    if vars.any fun v => v.size != 0 then false
    else
      match children with
      | .nil => true
      | .cons c _ => is_file_empty c

mutual
/-- The documented emptiness predicate (spec §4.2): every variable the
granule contains, recursively through all child groups, has total element
count 0.  Stated from the spec's words to compare against
`is_file_empty`. -/
def allVarsEmpty : NcGroup → Bool
  | .mk _ _ vars _ children =>
    (vars.all fun v => v.size == 0) && allVarsEmptyForest children
def allVarsEmptyForest : NcForest → Bool
  | .nil => true
  | .cons g rest => allVarsEmpty g && allVarsEmptyForest rest
end

/-- The emptiness filter of `merge_netcdf_files` (merge.py lines 58-65):
keep exactly the inputs `is_file_empty` classifies non-empty. -/
def retainedInputs (original_input_files : List NcGroup) : List NcGroup :=
  original_input_files.filter fun f => !is_file_empty f

/-- `run_preprocess` (preprocess_worker.py lines 18-33): single-core when
`process_count == 1`, else multi-core; the multi-core queue assignment is
the `partition` argument. -/
def run_preprocess (files : List NcGroup) (process_count : Int)
    (partition : List (List NcGroup)) : Except Err PPResult :=
  if process_count = 1 then runSingleCore files
  else runMultiCore partition

/-- The front of `merge_netcdf_files` (merge.py lines 27-75): reject
`process_count <= 0`, drop empty granules, run preprocessing.  Later
stages (output init, payload merge, metadata finalization) are embedded
separately. -/
def mergeNetcdfFilesPre (original_input_files : List NcGroup) (process_count : Int)
    (partition : List (List NcGroup)) : Except Err PPResult :=
  if process_count ≤ 0 then .error (.runtimeError "process_count should be > 0")
  else
    run_preprocess (retainedInputs original_input_files) process_count partition

/-- One iteration of the `clean_metadata` loop (merge.py lines 127-141):
read the snapshot key's current value (`KeyError` when gone), delete
plain-`bool` `False` values and `_FillValue`; then — unconditionally, even
after a delete — re-insert the value under the `/`→`_` escaped name and
`del` the original key, which raises `KeyError` when the key was already
deleted. -/
def cleanStep (m : PyDict PyVal) (key : String) : Except Err (PyDict PyVal) := do
  let val ←
    match dlookup key m with
    | some v => pure v
    | none => Except.error (Err.keyError key)
  let m :=
    if val = .scalar (.pBool false) then ddel key m
    else if key = "_FillValue" then ddel key m
    else m
  if hasSlash key then
    let new_key := escapeSlash key
    let m := dset new_key val m
    if dmem key m then pure (ddel key m)
    else Except.error (Err.keyError key)
  else pure m

/-- `clean_metadata` (merge.py lines 116-141): iterate a snapshot of the
keys (`for key in list(metadata)`) over the mutating dict. -/
def clean_metadata (metadata : PyDict PyVal) : Except Err (PyDict PyVal) :=
  (dkeys metadata).foldlM cleanStep metadata

/-! ## Merge engine (`merge_worker.py`) -/

/-- The scheduling mode `run_merge` selects: the current process alone, or
a writer in the current thread plus spawned reader processes. -/
inductive MergeMode where
  | single : MergeMode
  | multi : Nat → Nat → MergeMode
  deriving DecidableEq, Repr

/-- `_run_multi_core` (merge_worker.py lines 91-137) spawns
`process_count - 1` read processes and runs the one writer in the current
thread. -/
def multiCoreCounts (process_count : Nat) : Nat × Nat :=
  (1, process_count - 1)

/-- `run_merge` (merge_worker.py lines 28-52): single-core when
`process_count == 1`; otherwise `_run_multi_core` is invoked with the
literal process count `2`. -/
def runMergeMode (process_count : Nat) : MergeMode :=
  if process_count = 1 then .single
  else .multi (multiCoreCounts 2).1 (multiCoreCounts 2).2

/-- The constant `np.pad(..., constant_values=fill)` accepts: a scalar, or
a single-element array (broadcast); numpy rejects larger arrays. -/
def padFillElem : PyVal → Except Err PyScalar
  | .scalar s => .ok s
  | .ndarray _ [x] => .ok x
  | .ndarray _ _ => .error .valueError

/-- `np.full(shape, fill_value)` with `fill_value = var_meta.fill_value`:
when the descriptor has no fill value, numpy fills with the Python `None`
object (there is no fallback to 0 on this path). -/
def npFullElem : Option PyVal → Except Err PyScalar
  | none => .ok .pNone
  | some v => padFillElem v

/-- `resize_var` (merge_worker.py lines 248-282): 0-d variables pass
through; otherwise pad each axis on the high side by
`resolve_dim(max_dims, group_path, name) - size` with the descriptor's
fill value (0 when it is `None`); a negative width is numpy's
`ValueError`. -/
def resize_var (v : NcVar) (var_info : VariableInfo) (max_dims : PyDict Nat) :
    Except Err (Tensor PyScalar) := do
  if v.shape.length = 0 then
    pure v.data
  else
    let dims ← (v.dimOrder.zip v.shape).mapM fun p => do
      let t ← resolve_dim max_dims var_info.group_path p.1
      pure ((t : Int) - (p.2 : Int))
    if dims.any fun d => d < 0 then
      .error .valueError
    else
      let fill ←
        match var_info.fill_value with
        | none => pure (PyScalar.pInt 0)
        | some fv => padFillElem fv
      pure (padHigh fill v.shape (dims.map Int.toNat) v.data)

/-- The slab written at output slot `i` for one `(input, var_path)` pair,
as computed by `_run_single_core` (merge_worker.py lines 70-88) and
identically by `_run_worker` (lines 195-208): a missing variable becomes
`np.full` over `max_dims[f'/{dim}']` (a root-scope lookup — `KeyError`
when the dimension is recorded under a non-root group) of the raw fill
value; a present variable is resized. -/
def mergeSlab (origin : NcGroup) (var_path : String) (var_meta : VariableInfo)
    (max_dims : PyDict Nat) : Except Err (Tensor PyScalar) := do
  let rg ← resolve_group origin var_path
  match rg.1.vars.find? (fun v => v.name = rg.2) with
  | none => do
    let target_shape ← var_meta.dim_order.mapM fun dim =>
      match dlookup ("/" ++ dim) max_dims with
      | some n => Except.ok n
      | none => Except.error (Err.keyError ("/" ++ dim))
    let fe ← npFullElem var_meta.fill_value
    pure (constTensor fe target_shape)
  | some ds_var => resize_var ds_var var_meta max_dims

/-! ## Concrete example granules used by several claims -/

/-- A child group with no variables and no children. -/
def emptyLeafGroup : NcGroup := .mk "/A" [] [] [] .nil

/-- A 5-element variable. -/
def busyLeafVar : NcVar :=
  { name := "v", dimOrder := ["d"], shape := [5], datatype := "f4",
    attrs := [], data := constTensor (.pInt 1) [5] }

/-- A child group holding a non-empty variable. -/
def busyLeafGroup : NcGroup := .mk "/B" [("d", 5)] [busyLeafVar] [] .nil

/-- A granule whose root has two children: the first all-empty, the second
holding 5 data values. -/
def branchyGranule : NcGroup :=
  .mk "/" [] [] [] (.cons emptyLeafGroup (.cons busyLeafGroup .nil))

/-- A size-0 variable. -/
def sizeZeroVar : NcVar :=
  { name := "v", dimOrder := ["d"], shape := [0], datatype := "f4",
    attrs := [], data := .cells [] }

/-- A granule every variable of which has total element count 0. -/
def allEmptyGranule : NcGroup := .mk "/" [("d", 0)] [sizeZeroVar] [] .nil

/-- Ordering-insensitive equality of string lists: same underlying set. -/
def strSetEq (l1 l2 : List String) : Bool :=
  (l1.all fun s => decide (s ∈ l2)) && (l2.all fun s => decide (s ∈ l1))

/-- Ordering-insensitive equality of dictionaries: same key→value map. -/
def dictAgree [DecidableEq α] (d1 d2 : PyDict α) : Bool :=
  (d1.all fun p => decide (dlookup p.1 d2 = some p.2)) &&
  (d2.all fun p => decide (dlookup p.1 d1 = some p.2))

/-- Field-wise ordering-insensitive agreement of two preprocess outputs:
set equality on the group list, map equality on every dictionary. -/
def ppAgree (r1 r2 : PPResult) : Bool :=
  strSetEq r1.group_list r2.group_list &&
  dictAgree r1.max_dims r2.max_dims &&
  dictAgree r1.var_info r2.var_info &&
  dictAgree r1.var_metadata r2.var_metadata &&
  dictAgree r1.group_metadata r2.group_metadata

/-- A granule whose root holds the child group `/G1`. -/
def groupedGranule1 : NcGroup :=
  .mk "/" [] [] [] (.cons (.mk "/G1" [("d", 3)] [] [] .nil) .nil)

/-- A granule whose root holds the child group `/G2` instead. -/
def groupedGranule2 : NcGroup :=
  .mk "/" [] [] [] (.cons (.mk "/G2" [("d", 4)] [] [] .nil) .nil)

/-- A 3-element root variable with a fill value. -/
def sstVar : NcVar :=
  { name := "sst", dimOrder := ["d"], shape := [3], datatype := "f4",
    attrs := [("_FillValue", .scalar (.pInt 9))], data := constTensor (.pInt 1) [3] }

/-- A second 3-element root variable, without attributes. -/
def windVar : NcVar :=
  { name := "wind", dimOrder := ["d"], shape := [3], datatype := "f4",
    attrs := [], data := constTensor (.pInt 2) [3] }

/-- A flat granule holding only `sst`. -/
def flatGranule1 : NcGroup := .mk "/" [("d", 3)] [sstVar] [] .nil

/-- A flat granule holding `sst` and the extra variable `wind`. -/
def flatGranule2 : NcGroup := .mk "/" [("d", 3)] [sstVar, windVar] [] .nil

/-! ## Claim C2 -/

/-- Claim C2 (code bug): the emptiness test is supposed to classify a
granule empty iff every variable at every depth has element count 0, and
empty granules are dropped.  The code's `is_file_empty` `return`s from
inside the loop over child groups, so on `branchyGranule` — whose second
child holds 5 data values — it answers `true`, and the granule is wrongly
excluded from the retained inputs. -/
theorem claim_C2_code_eval :
    is_file_empty branchyGranule = true ∧
    allVarsEmpty branchyGranule = false ∧
    retainedInputs [branchyGranule] = [] :=
  ⟨rfl, rfl, rfl⟩

/-! ## Claim C8 -/

/-- Claim C8 (code bug): when every input granule is empty, the run is
supposed to fail with the `InvalidInput` class of errors before
preprocessing; instead the retained list is empty and `_run_single_core`
crashes on `group_list[0]` — an unrelated `IndexError` raised inside
preprocessing. -/
theorem claim_C8_code_eval :
    allVarsEmpty allEmptyGranule = true ∧
    is_file_empty allEmptyGranule = true ∧
    mergeNetcdfFilesPre [allEmptyGranule] 1 [] = .error .indexError :=
  ⟨rfl, rfl, rfl⟩

/-! ## Claim C5 -/

/-- Claim C5, counterexample: with `process_count = 3` the claim demands
one writer and `3 - 1 = 2` readers, but `run_merge` passes the literal `2`
to `_run_multi_core`, which therefore spawns a single reader. -/
theorem claim_C5_counterexample :
    runMergeMode 3 ≠ MergeMode.multi 1 (3 - 1) := by
  decide

/-- Claim C5, amended: for every `process_count ≥ 2` the merge engine runs
in multi-worker mode with exactly one writer and exactly one reader — the
process count is capped at the literal 2. -/
theorem claim_C5_amended (process_count : Nat) (h : 2 ≤ process_count) :
    runMergeMode process_count = MergeMode.multi 1 1 := by
  have hne : process_count ≠ 1 := by omega
  simp [runMergeMode, multiCoreCounts, hne]

/-- Witness for `claim_C5_amended` at `process_count = 5`. -/
theorem claim_C5_witness : runMergeMode 5 = MergeMode.multi 1 1 :=
  claim_C5_amended 5 (by decide)

/-! ## Claim C6 -/

/-- Claim C6, counterexample: a 0-d `ndarray` holding 5 and the scalar 5
have mismatching dynamic types and contents that compare equal only after
coercion, yet `attr_eq` answers `true` (the ndarray branch defers to
`np.array_equal`, which coerces the scalar to a 0-d array). -/
theorem claim_C6_counterexample :
    attr_eq (.ndarray [] [.pInt 5]) (.scalar (.pInt 5)) = true ∧
    pyTypeOf (.ndarray [] [.pInt 5]) ≠ pyTypeOf (.scalar (.pInt 5)) ∧
    npScalarEq (.pInt 5) (.pInt 5) = true := by
  refine ⟨rfl, by decide, rfl⟩

/-- Claim C6, amended: `attr_eq` compares array-shaped values elementwise
(after `np.asarray` coercion of a scalar operand to a 0-d array); two
non-array values of mismatching dynamic type are unequal even when
coercion-equal; an ndarray of nonzero rank is unequal to every scalar; a
0-d ndarray equals a scalar exactly when their single elements are
numpy-equal. -/
theorem claim_C6_amended :
    (∀ a b : PyVal, a.isNdarray = false → b.isNdarray = false →
      pyTypeOf a ≠ pyTypeOf b → attr_eq a b = false) ∧
    (∀ (sh : List Nat) (d : List PyScalar) (s : PyScalar), sh ≠ [] →
      attr_eq (.ndarray sh d) (.scalar s) = false) ∧
    (∀ (x s : PyScalar), attr_eq (.ndarray [] [x]) (.scalar s) = npScalarEq x s) := by
  refine ⟨?_, ?_, ?_⟩
  · intro a b ha hb hty
    have hb' : (pyTypeOf a != pyTypeOf b) = true := by
      simpa [bne_iff_ne] using hty
    simp [attr_eq, ha, hb, hb']
  · intro sh d s hsh
    cases sh with
    | nil => exact absurd rfl hsh
    | cons n ns => simp [attr_eq, PyVal.isNdarray, array_equal, asarray]
  · intro x s
    simp [attr_eq, PyVal.isNdarray, array_equal, asarray]

/-- Witness for `claim_C6_amended`: a rank-1 singleton ndarray is unequal
to the scalar with the same content. -/
theorem claim_C6_witness :
    attr_eq (.ndarray [1] [.pInt 5]) (.scalar (.pInt 5)) = false :=
  claim_C6_amended.2.1 [1] [.pInt 5] (.pInt 5) (by decide)

/-! ## Claim C9 -/

/-- Claim C9 (confirmed): the descriptor's `fill_value` is the variable's
`_FillValue` attribute when present, else its `missing_value` attribute
when present, and `None` only when the variable has neither. -/
theorem claim_C9_fill_value (v : NcVar) (gp : String) :
    (∀ fv, dlookup "_FillValue" v.attrs = some fv →
      (VariableInfo.build v gp).fill_value = some fv) ∧
    (dlookup "_FillValue" v.attrs = none →
      ∀ mv, dlookup "missing_value" v.attrs = some mv →
        (VariableInfo.build v gp).fill_value = some mv) ∧
    (dlookup "_FillValue" v.attrs = none → dlookup "missing_value" v.attrs = none →
      (VariableInfo.build v gp).fill_value = none) := by
  refine ⟨?_, ?_, ?_⟩ <;> intros <;> simp_all [VariableInfo.build]

/-- A variable carrying only a `missing_value` attribute. -/
def missingValueVar : NcVar :=
  { name := "t", dimOrder := [], shape := [], datatype := "f4",
    attrs := [("missing_value", .scalar (.pInt 4))], data := .scalar (.pInt 0) }

/-- Witness for `claim_C9_fill_value`: the `missing_value` fallback. -/
theorem claim_C9_witness :
    (VariableInfo.build missingValueVar "/").fill_value = some (.scalar (.pInt 4)) :=
  (claim_C9_fill_value missingValueVar "/").2.1 rfl _ rfl

/-! ## Tensor lemmas -/

/-- A multi-index is admissible for a shape: same rank, every coordinate
strictly below the corresponding size. -/
def idxInBounds : List Nat → List Nat → Bool
  | [], [] => true
  | i :: is, s :: ss => decide (i < s) && idxInBounds is ss
  | _, _ => false

theorem constTensor_hasShape (fill : α) :
    ∀ sh, (constTensor fill sh).hasShape sh = true := by
  intro sh
  induction sh with
  | nil => rfl
  | cons n ns ih =>
    simp only [constTensor, Tensor.hasShape, Bool.and_eq_true, beq_iff_eq,
      List.length_replicate, List.all_eq_true]
    exact ⟨trivial, fun t ht => by rw [List.eq_of_mem_replicate ht]; exact ih⟩

theorem constTensor_get (fill : α) :
    ∀ sh idx, idxInBounds idx sh = true →
      Tensor.get idx (constTensor fill sh) = some fill := by
  intro sh
  induction sh with
  | nil =>
    intro idx h
    cases idx with
    | nil => rfl
    | cons i is => simp [idxInBounds] at h
  | cons n ns ih =>
    intro idx h
    cases idx with
    | nil => simp [idxInBounds] at h
    | cons i is =>
      simp only [idxInBounds, Bool.and_eq_true, decide_eq_true_eq] at h
      simp only [constTensor, Tensor.get, List.getElem?_replicate, if_pos h.1,
        Option.bind_eq_bind, Option.some_bind]
      exact ih is h.2

theorem padHigh_hasShape (fill : α) :
    ∀ (shape widths : List Nat) (t : Tensor α),
      shape.length = widths.length → t.hasShape shape = true →
      (padHigh fill shape widths t).hasShape (List.zipWith (· + ·) shape widths) = true := by
  intro shape
  induction shape with
  | nil =>
    intro widths t hlen ht
    cases widths with
    | nil => exact ht
    | cons w ws => simp at hlen
  | cons s ss ih =>
    intro widths t hlen ht
    cases widths with
    | nil => simp at hlen
    | cons w ws =>
      cases t with
      | scalar a => simp [Tensor.hasShape] at ht
      | cells cs =>
        simp only [Tensor.hasShape, Bool.and_eq_true, beq_iff_eq, List.all_eq_true] at ht
        simp only [padHigh, List.zipWith_cons_cons, Tensor.hasShape, Bool.and_eq_true,
          beq_iff_eq, List.all_eq_true, List.length_append, List.length_map,
          List.length_replicate]
        refine ⟨by rw [ht.1], fun t htm => ?_⟩
        rcases List.mem_append.mp htm with hmap | hrep
        · rcases List.mem_map.mp hmap with ⟨c, hc, rfl⟩
          exact ih ws c (by simpa using hlen) (ht.2 c hc)
        · rw [List.eq_of_mem_replicate hrep]
          exact constTensor_hasShape fill (List.zipWith (· + ·) ss ws)

theorem padHigh_get_inside (fill : α) :
    ∀ (shape widths : List Nat) (t : Tensor α) (idx : List Nat),
      t.hasShape shape = true → shape.length = widths.length →
      idxInBounds idx shape = true →
      Tensor.get idx (padHigh fill shape widths t) = Tensor.get idx t := by
  intro shape
  induction shape with
  | nil =>
    intro widths t idx _ _ _
    cases widths <;> rfl
  | cons s ss ih =>
    intro widths t idx ht hlen hidx
    cases widths with
    | nil => simp at hlen
    | cons w ws =>
      cases idx with
      | nil => simp [idxInBounds] at hidx
      | cons i is =>
        cases t with
        | scalar a => simp [Tensor.hasShape] at ht
        | cells cs =>
          simp only [Tensor.hasShape, Bool.and_eq_true, beq_iff_eq, List.all_eq_true] at ht
          simp only [idxInBounds, Bool.and_eq_true, decide_eq_true_eq] at hidx
          have hi : i < cs.length := by rw [ht.1]; exact hidx.1
          obtain ⟨c, hc⟩ : ∃ c, cs[i]? = some c :=
            ⟨cs[i], List.getElem?_eq_getElem hi⟩
          have hmem : c ∈ cs := by
            have := List.getElem?_mem hc
            exact this
          simp only [padHigh, Tensor.get, Option.bind_eq_bind]
          rw [List.getElem?_append_left (by simpa [List.length_map] using hi),
            List.getElem?_map, hc]
          simp only [Option.map_some', Option.some_bind]
          exact ih ws c is (ht.2 c hmem) (by simpa using hlen) hidx.2

theorem padHigh_get_outside (fill : α) :
    ∀ (shape widths : List Nat) (t : Tensor α) (idx : List Nat),
      t.hasShape shape = true → shape.length = widths.length →
      idxInBounds idx (List.zipWith (· + ·) shape widths) = true →
      idxInBounds idx shape = false →
      Tensor.get idx (padHigh fill shape widths t) = some fill := by
  intro shape
  induction shape with
  | nil =>
    intro widths t idx _ hlen hpad horig
    cases widths with
    | nil =>
      cases idx with
      | nil => simp [idxInBounds] at horig
      | cons i is => simp [idxInBounds] at hpad
    | cons w ws => simp at hlen
  | cons s ss ih =>
    intro widths t idx ht hlen hpad horig
    cases widths with
    | nil => simp at hlen
    | cons w ws =>
      cases idx with
      | nil => simp [List.zipWith_cons_cons, idxInBounds] at hpad
      | cons i is =>
        cases t with
        | scalar a => simp [Tensor.hasShape] at ht
        | cells cs =>
          simp only [Tensor.hasShape, Bool.and_eq_true, beq_iff_eq, List.all_eq_true] at ht
          simp only [List.zipWith_cons_cons, idxInBounds, Bool.and_eq_true,
            decide_eq_true_eq] at hpad
          simp only [padHigh, Tensor.get, Option.bind_eq_bind]
          by_cases hi : i < s
          · have horig' : idxInBounds is ss = false := by
              cases h' : idxInBounds is ss with
              | false => rfl
              | true =>
                have hcon : idxInBounds (i :: is) (s :: ss) = true := by
                  simp [idxInBounds, hi, h']
                rw [hcon] at horig
                cases horig
            have hi' : i < cs.length := by rw [ht.1]; exact hi
            obtain ⟨c, hc⟩ : ∃ c, cs[i]? = some c :=
              ⟨cs[i], List.getElem?_eq_getElem hi'⟩
            have hmem : c ∈ cs := List.getElem?_mem hc
            rw [List.getElem?_append_left (by simpa [List.length_map] using hi'),
              List.getElem?_map, hc]
            simp only [Option.map_some', Option.some_bind]
            exact ih ws c is (ht.2 c hmem) (by simpa using hlen) hpad.2 horig'
          · have hge : s ≤ i := Nat.le_of_not_lt hi
            have hrep : i - (cs.map (padHigh fill ss ws)).length < w := by
              simp only [List.length_map, ht.1]
              omega
            rw [List.getElem?_append_right (by simp [List.length_map, ht.1]; omega)]
            rw [List.getElem?_replicate, if_pos hrep]
            simp only [Option.some_bind]
            exact constTensor_get fill (List.zipWith (· + ·) ss ws) is hpad.2

/-- The `Except` monad computes: binding a success applies the
continuation. -/
theorem exceptBind_ok {ε α β : Type} (a : α) (f : α → Except ε β) :
    (Except.ok a >>= f : Except ε β) = f a := rfl

/-- Binding a failure propagates it. -/
theorem exceptBind_err {ε α β : Type} (e : ε) (f : α → Except ε β) :
    (Except.error e >>= f : Except ε β) = Except.error e := rfl

/-- `pure` in the `Except` monad is `ok`. -/
theorem exceptPure {ε α : Type} (a : α) : (pure a : Except ε α) = Except.ok a := rfl

/-! ## Claim C3 -/

/-- A descriptor for a variable living in the non-root group `/g`, with a
fill value. -/
def nonRootVarMeta : VariableInfo :=
  { name := "x", dim_order := ["d"], datatype := "f4", group_path := "/g",
    fill_value := some (.scalar (.pInt 7)) }

/-- A granule that contains group `/g` but no variable `/g/x`. -/
def granuleLackingVar : NcGroup :=
  .mk "/" [] [] [] (.cons (.mk "/g" [] [] [] .nil) .nil)

/-- A `max_dims` table in which dimension `d` is recorded under the
non-root group `/g`, exactly where `resolve_dim` would find it. -/
def scopedMaxDims : PyDict Nat := [("/g/d", 2)]

/-- Claim C3, counterexample: for the retained input `granuleLackingVar`,
which lacks `/g/x` (a variable of a non-root group), `resolve_dim` — the
resolution the claim prescribes — finds dimension `d` (size 2), but the
missing-variable branch looks up `max_dims['/d']` at root scope only and
dies with a `KeyError` instead of writing a full-shape fill-value array. -/
theorem claim_C3_counterexample :
    resolve_dim scopedMaxDims "/g" "d" = .ok 2 ∧
    mergeSlab granuleLackingVar "/g/x" nonRootVarMeta scopedMaxDims =
      .error (.keyError "/d") :=
  ⟨rfl, rfl⟩

/-- Claim C3, amended: when a retained input lacks a variable present in
the unified `var_info`, and every name in the variable's `dim_order` is
present in `max_dims` at root scope (`'/' + name`), the engine produces
the full-shape array over those root-scope sizes whose every cell is the
raw `np.full` fill — the descriptor's fill value when present, and the
Python `None` object (not 0) when absent. -/
theorem claim_C3_amended (origin : NcGroup) (var_path : String)
    (var_meta : VariableInfo) (max_dims : PyDict Nat)
    (rg : NcGroup × String) (shape : List Nat) (fe : PyScalar)
    (hrg : resolve_group origin var_path = .ok rg)
    (hnone : rg.1.vars.find? (fun v => v.name = rg.2) = none)
    (hsh : var_meta.dim_order.mapM (fun dim =>
      match dlookup ("/" ++ dim) max_dims with
      | some n => Except.ok n
      | none => Except.error (Err.keyError ("/" ++ dim))) = .ok shape)
    (hfe : npFullElem var_meta.fill_value = .ok fe) :
    mergeSlab origin var_path var_meta max_dims = .ok (constTensor fe shape) ∧
    (constTensor fe shape).hasShape shape = true ∧
    ∀ idx, idxInBounds idx shape = true → (constTensor fe shape).get idx = some fe := by
  refine ⟨?_, constTensor_hasShape fe shape, fun idx h => constTensor_get fe shape idx h⟩
  simp only [mergeSlab, hrg, exceptBind_ok]
  rw [hnone]
  simp only [hsh, hfe, exceptBind_ok, exceptPure]

/-- Witness for `claim_C3_amended`: the same granule and descriptor as the
counterexample, but with dimension `d` recorded at root scope. -/
theorem claim_C3_witness :
    mergeSlab granuleLackingVar "/g/x" nonRootVarMeta [("/d", 2)] =
      .ok (constTensor (.pInt 7) [2]) :=
  (claim_C3_amended granuleLackingVar "/g/x" nonRootVarMeta [("/d", 2)]
    ((.mk "/g" [] [] [] .nil), "x") [2] (.pInt 7) rfl rfl rfl rfl).1

/-! ## Claim C4 -/

/-- Splitting `resize_var`'s width computation: when resolving every
dimension of the variable succeeds with target sizes `ts`, the fused
resolve-and-subtract loop returns the signed differences `tⱼ - sⱼ`. -/
theorem mapM_resolve_sub (l : List (String × Nat)) (f : String → Except Err Nat) :
    ∀ ts : List Nat, l.mapM (fun p => f p.1) = .ok ts →
      l.mapM (fun p => do
        let t ← f p.1
        pure ((t : Int) - (p.2 : Int))) =
      .ok (List.zipWith (fun (t s : Nat) => (t : Int) - (s : Int)) ts (l.map Prod.snd)) := by
  induction l with
  | nil =>
    intro ts h
    have : ts = [] := by
      have h' : (Except.ok [] : Except Err (List Nat)) = .ok ts := h
      cases h'
      rfl
    subst this
    rfl
  | cons p l ih =>
    intro ts h
    rw [List.mapM_cons] at h ⊢
    cases hf : f p.1 with
    | error e => rw [hf, exceptBind_err] at h; cases h
    | ok t =>
      rw [hf, exceptBind_ok] at h
      cases hrest : l.mapM (fun p => f p.1) with
      | error e => rw [hrest, exceptBind_err] at h; cases h
      | ok ts' =>
        rw [hrest, exceptBind_ok, exceptPure] at h
        cases h
        have ih' := ih ts' hrest
        simp only [exceptPure] at ih'
        simp only [hf, exceptPure, exceptBind_ok, ih']
        rfl

/-- No resolved width is negative when every target dominates its size. -/
theorem widths_nonneg {s ts : List Nat} (h : List.Forall₂ (· ≤ ·) s ts) :
    ((List.zipWith (fun (t s' : Nat) => (t : Int) - (s' : Int)) ts s).any fun d =>
      decide (d < 0)) = false := by
  induction h with
  | nil => rfl
  | @cons a b l₁ l₂ hab _ ih =>
    simp only [List.zipWith_cons_cons, List.any_cons, Bool.or_eq_false_iff]
    refine ⟨?_, ih⟩
    simp only [decide_eq_false_iff_not, not_lt]
    have hab' : (a : Int) ≤ (b : Int) := by exact_mod_cast hab
    omega

/-- Truncating the signed widths recovers the natural-number widths. -/
theorem toNat_widths : ∀ (ts s : List Nat),
    (List.zipWith (fun (t s' : Nat) => (t : Int) - (s' : Int)) ts s).map Int.toNat =
      List.zipWith (fun (t s' : Nat) => t - s') ts s := by
  intro ts
  induction ts with
  | nil => intro s; rfl
  | cons t ts ih =>
    intro s
    cases s with
    | nil => rfl
    | cons a as => simp [List.zipWith_cons_cons, ih, Int.toNat_sub]

/-- Padding the actual sizes by the widths lands exactly on the targets. -/
theorem zipWith_add_widths {s ts : List Nat} (h : List.Forall₂ (· ≤ ·) s ts) :
    List.zipWith (· + ·) s (List.zipWith (fun t s' => t - s') ts s) = ts := by
  induction h with
  | nil => rfl
  | @cons a b l₁ l₂ hab _ ih =>
    simp only [List.zipWith_cons_cons, ih, List.cons.injEq, and_true]
    omega

/-- Claim C4 (confirmed): for a variable with actual sizes `v.shape` and
resolved targets `ts = resolve_dim(max_dims, group_path, dⱼ)`, `resize_var`
pads each axis on the high side only by `tⱼ - sⱼ`, with the descriptor's
fill value (0 when absent) as the pad constant: the result has shape `ts`,
agrees with the original payload at every in-bounds index of the low
corner, equals the fill constant at every index beyond the original
extent, and passes a 0-dimensional variable through unchanged. -/
theorem claim_C4_resize_var (v : NcVar) (vi : VariableInfo) (md : PyDict Nat)
    (ts : List Nat) (fill : PyScalar)
    (hdata : v.data.hasShape v.shape = true)
    (hlen : v.dimOrder.length = v.shape.length)
    (hres : (v.dimOrder.zip v.shape).mapM
      (fun p => resolve_dim md vi.group_path p.1) = .ok ts)
    (hle : List.Forall₂ (· ≤ ·) v.shape ts)
    (hfill : (match vi.fill_value with
      | none => Except.ok (PyScalar.pInt 0)
      | some fv => padFillElem fv) = Except.ok fill) :
    (v.shape = [] → resize_var v vi md = .ok v.data) ∧
    (v.shape ≠ [] →
      resize_var v vi md =
        .ok (padHigh fill v.shape (List.zipWith (fun t s => t - s) ts v.shape) v.data) ∧
      (padHigh fill v.shape (List.zipWith (fun t s => t - s) ts v.shape) v.data).hasShape
        ts = true ∧
      (∀ idx, idxInBounds idx v.shape = true →
        Tensor.get idx
          (padHigh fill v.shape (List.zipWith (fun t s => t - s) ts v.shape) v.data) =
        Tensor.get idx v.data) ∧
      (∀ idx, idxInBounds idx ts = true → idxInBounds idx v.shape = false →
        Tensor.get idx
          (padHigh fill v.shape (List.zipWith (fun t s => t - s) ts v.shape) v.data) =
        some fill)) := by
  have hsnd : (v.dimOrder.zip v.shape).map Prod.snd = v.shape :=
    List.map_snd_zip _ _ (le_of_eq hlen.symm)
  have hwlen : v.shape.length = (List.zipWith (fun t s => t - s) ts v.shape).length := by
    rw [List.length_zipWith, hle.length_eq]
    omega
  constructor
  · intro hnil
    simp [resize_var, hnil, exceptPure]
  · intro hne
    have hlen0 : ¬ v.shape.length = 0 := by
      rw [List.length_eq_zero]
      exact hne
    have heq : resize_var v vi md =
        .ok (padHigh fill v.shape (List.zipWith (fun t s => t - s) ts v.shape) v.data) := by
      have hdims := mapM_resolve_sub (v.dimOrder.zip v.shape)
        (resolve_dim md vi.group_path) ts hres
      rw [hsnd] at hdims
      simp only [exceptPure] at hdims
      simp only [resize_var, hlen0, if_false, reduceIte, exceptPure, hdims,
        exceptBind_ok, widths_nonneg hle, Bool.false_eq_true, toNat_widths]
      cases hv : vi.fill_value with
      | none =>
        simp only [hv] at hfill ⊢
        cases hfill
        rfl
      | some fv =>
        simp only [hv] at hfill ⊢
        rw [hfill, exceptBind_ok]
    refine ⟨heq, ?_, ?_, ?_⟩
    · have := padHigh_hasShape fill v.shape
        (List.zipWith (fun t s => t - s) ts v.shape) v.data hwlen hdata
      rwa [zipWith_add_widths hle] at this
    · intro idx hidx
      exact padHigh_get_inside fill v.shape _ v.data idx hdata hwlen hidx
    · intro idx hts hsh
      refine padHigh_get_outside fill v.shape _ v.data idx hdata hwlen ?_ hsh
      rwa [zipWith_add_widths hle]

/-- A concrete `1 × 2` variable with data `[[1, 2]]`. -/
def padExampleVar : NcVar :=
  { name := "x", dimOrder := ["a", "b"], shape := [1, 2], datatype := "f4",
    attrs := [],
    data := .cells [.cells [.scalar (.pInt 1), .scalar (.pInt 2)]] }

/-- Its descriptor, rooted at `/`, with fill value 9. -/
def padExampleMeta : VariableInfo :=
  { name := "x", dim_order := ["a", "b"], datatype := "f4", group_path := "/",
    fill_value := some (.scalar (.pInt 9)) }

/-- Witness for `claim_C4_resize_var`: resizing the `1 × 2` example to the
`2 × 3` targets keeps cell `[0, 0]` and fills cell `[1, 2]` with 9. -/
theorem claim_C4_witness :
    resize_var padExampleVar padExampleMeta [("/a", 2), ("/b", 3)] =
      .ok (padHigh (.pInt 9) [1, 2]
        (List.zipWith (fun t s => t - s) [2, 3] [1, 2]) padExampleVar.data) ∧
    Tensor.get [0, 0]
      (padHigh (.pInt 9) [1, 2]
        (List.zipWith (fun t s => t - s) [2, 3] [1, 2]) padExampleVar.data) =
      some (.pInt 1) ∧
    Tensor.get [1, 2]
      (padHigh (.pInt 9) [1, 2]
        (List.zipWith (fun t s => t - s) [2, 3] [1, 2]) padExampleVar.data) =
      some (.pInt 9) := by
  have h := claim_C4_resize_var padExampleVar padExampleMeta [("/a", 2), ("/b", 3)]
    [2, 3] (.pInt 9) rfl rfl rfl
    (List.Forall₂.cons (by omega) (List.Forall₂.cons (by omega) List.Forall₂.nil)) rfl
  have h2 := h.2 (by decide)
  exact ⟨h2.1, (h2.2.2.1 [0, 0] (by decide)).trans rfl,
    h2.2.2.2 [1, 2] (by decide) (by decide)⟩

/-! ## Dictionary lemmas -/

theorem dmem_iff (k : String) : ∀ d : PyDict α, dmem k d = true ↔ k ∈ dkeys d := by
  intro d
  induction d with
  | nil => simp [dmem, dlookup, dkeys]
  | cons p t ih =>
    obtain ⟨k', v⟩ := p
    by_cases h : k' = k
    · subst h
      simp [dmem, dlookup, dkeys]
    · simp only [dmem, dlookup, if_neg h, dkeys, List.map_cons, List.mem_cons]
      rw [← dkeys, ← dmem]
      rw [ih]
      constructor
      · exact fun hm => Or.inr hm
      · rintro (hm | hm)
        · exact absurd hm.symm h
        · exact hm

theorem dlookup_append (k : String) : ∀ a b : PyDict α,
    dlookup k (a ++ b) =
      match dlookup k a with
      | some v => some v
      | none => dlookup k b := by
  intro a b
  induction a with
  | nil => rfl
  | cons p t ih =>
    obtain ⟨k', v⟩ := p
    by_cases h : k' = k
    · subst h; simp [dlookup]
    · simp [dlookup, if_neg h, ih]

theorem dlookup_dset (k k' : String) (v : α) : ∀ d : PyDict α,
    dlookup k (dset k' v d) = if k' = k then some v else dlookup k d := by
  intro d
  induction d with
  | nil =>
    by_cases h : k' = k <;> simp [dset, dlookup, h]
  | cons p t ih =>
    obtain ⟨k₀, v₀⟩ := p
    by_cases h0 : k₀ = k'
    · subst h0
      by_cases hk : k₀ = k
      · subst hk
        simp [dset, dlookup]
      · have hk' : ¬ k₀ = k := hk
        simp [dset, dlookup, hk']
    · by_cases hk : k₀ = k
      · subst hk
        have hne : ¬ k' = k₀ := fun h => h0 h.symm
        simp [dset, dlookup, h0, hne]
      · simp [dset, dlookup, h0, hk, ih]

theorem dkeys_dset (k : String) (v : α) : ∀ d : PyDict α,
    dkeys (dset k v d) = if dmem k d then dkeys d else dkeys d ++ [k] := by
  intro d
  induction d with
  | nil => simp [dset, dkeys, dmem, dlookup]
  | cons p t ih =>
    obtain ⟨k₀, v₀⟩ := p
    by_cases h0 : k₀ = k
    · subst h0
      simp [dset, dkeys, dmem, dlookup]
    · simp only [dset, if_neg h0, dkeys, List.map_cons]
      rw [← dkeys, ← dkeys, ih]
      have hmem : dmem k ((k₀, v₀) :: t) = dmem k t := by
        simp [dmem, dlookup, h0]
      rw [hmem]
      by_cases hm : dmem k t
      · simp [hm]
      · simp [hm]

theorem nodup_dset (k : String) (v : α) (d : PyDict α) (h : NodupKeys d) :
    NodupKeys (dset k v d) := by
  unfold NodupKeys
  rw [dkeys_dset]
  by_cases hm : dmem k d
  · rw [if_pos hm]
    exact h
  · rw [if_neg hm]
    rw [List.nodup_append]
    refine ⟨h, List.nodup_singleton k, ?_⟩
    intro x hx
    simp only [List.mem_singleton]
    intro he
    subst he
    exact hm ((dmem_iff x d).mpr hx)

/-! ## Claim C10 -/

/-- The coordinator's accumulation of `max_dims` over worker results
(`_run_multi_core` line 244 iterated from the empty dict). -/
def mergeAllMaxDims (ds : List (PyDict Nat)) : PyDict Nat :=
  ds.foldl merge_max_dims []

/-- Pointwise maximum of optional sizes: the effect of `merge_max_dims`
at a single key. -/
def combineMax : Option Nat → Option Nat → Option Nat
  | a, none => a
  | none, some v => some v
  | some x, some v => some (max x v)

theorem combineMax_none_right (a : Option Nat) : combineMax a none = a := by
  cases a <;> rfl

theorem combineMax_right_comm (a b c : Option Nat) :
    combineMax (combineMax a b) c = combineMax (combineMax a c) b := by
  cases a <;> cases b <;> cases c <;>
    simp [combineMax, Nat.max_comm, Nat.max_left_comm, Nat.max_assoc]

/-- One key's view of `merge_max_dims`: looking up `k` after merging a
worker dict (with unique keys) is the maximum of the two lookups. -/
theorem dlookup_merge_max_dims (k : String) : ∀ (subset merged : PyDict Nat),
    NodupKeys subset →
    dlookup k (merge_max_dims merged subset) =
      combineMax (dlookup k merged) (dlookup k subset) := by
  intro subset
  induction subset with
  | nil =>
    intro merged _
    rw [show dlookup k ([] : PyDict Nat) = none from rfl, combineMax_none_right]
    rfl
  | cons p rest ih =>
    intro merged hnd
    obtain ⟨k0, v0⟩ := p
    have hnd' : NodupKeys rest := by
      unfold NodupKeys dkeys at hnd ⊢
      exact (List.nodup_cons.mp hnd).2
    have hk0 : k0 ∉ dkeys rest := by
      unfold NodupKeys dkeys at hnd
      exact (List.nodup_cons.mp hnd).1
    have hstep : ∀ m : PyDict Nat, merge_max_dims m ((k0, v0) :: rest) =
        merge_max_dims (match dlookup k0 m with
          | none => dset k0 v0 m
          | some cur => if cur < v0 then dset k0 v0 m else m) rest := by
      intro m
      rfl
    rw [hstep, ih _ hnd']
    by_cases hk : k0 = k
    · subst hk
      have hrest : dlookup k0 rest = none := by
        cases h : dlookup k0 rest with
        | none => rfl
        | some w =>
          exact absurd ((dmem_iff k0 rest).mp (by simp [dmem, h])) hk0
      rw [hrest, combineMax_none_right]
      simp only [dlookup, if_pos rfl]
      cases hcur : dlookup k0 merged with
      | none => simp [dlookup_dset, combineMax]
      | some cur =>
        by_cases hlt : cur < v0
        · simp only [if_pos hlt]
          rw [dlookup_dset]
          simp only [if_pos rfl, combineMax]
          exact congrArg some (Nat.max_eq_right (le_of_lt hlt)).symm
        · simp only [if_neg hlt, hcur, combineMax]
          exact congrArg some (Nat.max_eq_left (Nat.le_of_not_lt hlt)).symm
    · have hhead : dlookup k ((k0, v0) :: rest) = dlookup k rest := by
        simp [dlookup, if_neg hk]
      rw [hhead]
      have hm : (match dlookup k0 merged with
          | none => dset k0 v0 merged
          | some cur => if cur < v0 then dset k0 v0 merged else merged) = (bif
            (match dlookup k0 merged with
             | none => true
             | some cur => decide (cur < v0)) then dset k0 v0 merged else merged) := by
        cases dlookup k0 merged with
        | none => rfl
        | some cur =>
          by_cases hlt : cur < v0 <;> simp [hlt]
      rw [hm]
      cases hb : (match dlookup k0 merged with
          | none => true
          | some cur => decide (cur < v0)) with
      | false => rfl
      | true =>
        simp only [cond_true]
        rw [dlookup_dset, if_neg hk]

/-- One key's view of the whole fold over worker results. -/
theorem dlookup_mergeAll (k : String) : ∀ (ds : List (PyDict Nat)) (m : PyDict Nat),
    (∀ d ∈ ds, NodupKeys d) →
    dlookup k (ds.foldl merge_max_dims m) =
      ds.foldl (fun a d => combineMax a (dlookup k d)) (dlookup k m) := by
  intro ds
  induction ds with
  | nil => intro m _; rfl
  | cons d rest ih =>
    intro m hnd
    simp only [List.foldl_cons]
    rw [ih _ (fun x hx => hnd x (List.mem_cons_of_mem d hx)),
      dlookup_merge_max_dims k d m (hnd d (List.mem_cons_self d rest))]

theorem foldl_combineMax_mem (k : String) : ∀ (ds : List (PyDict Nat)) (a : Option Nat)
    (m : Nat), ds.foldl (fun a d => combineMax a (dlookup k d)) a = some m →
    a = some m ∨ ∃ d ∈ ds, dlookup k d = some m := by
  intro ds
  induction ds with
  | nil => intro a m h; exact Or.inl h
  | cons d rest ih =>
    intro a m h
    simp only [List.foldl_cons] at h
    rcases ih _ m h with hc | ⟨d', hd', hv⟩
    · cases hl : dlookup k d with
      | none => rw [hl, combineMax_none_right] at hc; exact Or.inl hc
      | some v =>
        rw [hl] at hc
        cases a with
        | none =>
          simp only [combineMax] at hc
          exact Or.inr ⟨d, List.mem_cons_self d rest, by rw [hl, hc]⟩
        | some x =>
          simp only [combineMax, Option.some.injEq] at hc
          rcases max_choice x v with hx | hx
          · exact Or.inl (by rw [← hc, hx])
          · exact Or.inr ⟨d, List.mem_cons_self d rest, by rw [hl, ← hc, hx]⟩
    · exact Or.inr ⟨d', List.mem_cons_of_mem d hd', hv⟩

theorem foldl_combineMax_le (k : String) : ∀ (ds : List (PyDict Nat)) (a : Option Nat)
    (m : Nat), ds.foldl (fun a d => combineMax a (dlookup k d)) a = some m →
    ∀ d ∈ ds, ∀ x, dlookup k d = some x → x ≤ m := by
  intro ds
  induction ds with
  | nil => intro a m _ d hd; cases hd
  | cons d0 rest ih =>
    intro a m h d hd x hx
    simp only [List.foldl_cons] at h
    rcases List.mem_cons.mp hd with rfl | hd'
    · -- the element contributes to the accumulator; track it up the fold
      have hmono : ∀ (l : List (PyDict Nat)) (b : Option Nat) (y m' : Nat),
          b = some y → l.foldl (fun a d => combineMax a (dlookup k d)) b = some m' →
          y ≤ m' := by
        intro l
        induction l with
        | nil =>
          intro b y m' hb hf
          rw [hb] at hf
          cases hf
          exact le_refl _
        | cons c cs ihc =>
          intro b y m' hb hf
          simp only [List.foldl_cons] at hf
          cases hl : dlookup k c with
          | none =>
            rw [hl, combineMax_none_right] at hf
            exact ihc b y m' hb (by rw [hb] at hf ⊢; exact hf)
          | some v =>
            rw [hb, hl] at hf
            have : (some (max y v) : Option Nat) = combineMax (some y) (some v) := rfl
            refine le_trans (Nat.le_max_left y v) (ihc (some (max y v)) (max y v) m' rfl ?_)
            rw [← this] at hf
            exact hf
      cases a with
      | none =>
        rw [hx] at h
        exact hmono rest (combineMax none (some x)) x m rfl h
      | some z =>
        rw [hx] at h
        exact le_trans (Nat.le_max_right z x)
          (hmono rest (combineMax (some z) (some x)) (max z x) m rfl h)
    · exact ih _ m h d hd' x hx

theorem foldl_combineMax_none (k : String) : ∀ (ds : List (PyDict Nat)) (a : Option Nat),
    ds.foldl (fun a d => combineMax a (dlookup k d)) a = none →
    ∀ d ∈ ds, dlookup k d = none := by
  intro ds
  induction ds with
  | nil => intro a _ d hd; cases hd
  | cons d0 rest ih =>
    intro a h d hd
    simp only [List.foldl_cons] at h
    have hnone : ∀ (l : List (PyDict Nat)) (b : Option Nat),
        l.foldl (fun a d => combineMax a (dlookup k d)) b = none → b = none := by
      intro l
      induction l with
      | nil => intro b hb; exact hb
      | cons c cs ihc =>
        intro b hb
        simp only [List.foldl_cons] at hb
        have := ihc _ hb
        cases hl : dlookup k c with
        | none => rw [hl, combineMax_none_right] at this; exact this
        | some v => rw [hl] at this; cases b <;> simp [combineMax] at this
    rcases List.mem_cons.mp hd with rfl | hd'
    · have := hnone rest _ h
      cases hl : dlookup k d with
      | none => rfl
      | some v => rw [hl] at this; cases a <;> simp [combineMax] at this
    · exact ih _ h d hd'

/-- Claim C10 (confirmed): folding per-worker `max_dims` dictionaries with
`merge_max_dims` is order-independent — every permutation of the worker
results yields the same merged mapping — and in the result each key maps
to the maximum size reported for it by any worker (and is absent exactly
when no worker reports it). -/
theorem claim_C10_merge_max_dims (ds1 ds2 : List (PyDict Nat))
    (hnodup : ∀ d ∈ ds1, NodupKeys d) (hperm : ds1.Perm ds2) :
    (∀ k, dlookup k (mergeAllMaxDims ds1) = dlookup k (mergeAllMaxDims ds2)) ∧
    (∀ k m, dlookup k (mergeAllMaxDims ds1) = some m →
      (∃ d ∈ ds1, dlookup k d = some m) ∧
      (∀ d ∈ ds1, ∀ x, dlookup k d = some x → x ≤ m)) ∧
    (∀ k, dlookup k (mergeAllMaxDims ds1) = none → ∀ d ∈ ds1, dlookup k d = none) := by
  have hnodup2 : ∀ d ∈ ds2, NodupKeys d := fun d hd => hnodup d (hperm.mem_iff.mpr hd)
  refine ⟨?_, ?_, ?_⟩
  · intro k
    rw [mergeAllMaxDims, mergeAllMaxDims, dlookup_mergeAll k ds1 [] hnodup,
      dlookup_mergeAll k ds2 [] hnodup2]
    exact hperm.foldl_eq'
      (fun x _ y _ z => combineMax_right_comm z (dlookup k x) (dlookup k y)) _
  · intro k m h
    rw [mergeAllMaxDims, dlookup_mergeAll k ds1 [] hnodup] at h
    refine ⟨?_, foldl_combineMax_le k ds1 _ m h⟩
    rcases foldl_combineMax_mem k ds1 _ m h with hc | hc
    · cases hc
    · exact hc
  · intro k h
    rw [mergeAllMaxDims, dlookup_mergeAll k ds1 [] hnodup] at h
    exact foldl_combineMax_none k ds1 _ h

/-- Witness for `claim_C10_merge_max_dims`: two worker dictionaries folded
in both orders agree, and key `a` gets the maximum 5. -/
theorem claim_C10_witness :
    dlookup "a" (mergeAllMaxDims [[("a", 3)], [("a", 5), ("b", 1)]]) =
      dlookup "a" (mergeAllMaxDims [[("a", 5), ("b", 1)], [("a", 3)]]) ∧
    dlookup "a" (mergeAllMaxDims [[("a", 3)], [("a", 5), ("b", 1)]]) = some 5 := by
  have h := claim_C10_merge_max_dims [[("a", 3)], [("a", 5), ("b", 1)]]
    [[("a", 5), ("b", 1)], [("a", 3)]]
    (by intro d hd; simp only [List.mem_cons, List.mem_singleton] at hd
        rcases hd with rfl | rfl | h
        · decide
        · decide
        · cases h)
    (List.Perm.swap _ _ _)
  exact ⟨h.1 "a", by decide⟩

/-! ## Claim C7 -/

/-- An attribute entry survives `clean_metadata`'s deletion pass: it is
neither the Boolean-`False` inconsistency sentinel nor `_FillValue`. -/
def keepEntry (p : String × PyVal) : Bool :=
  if p.2 = PyVal.scalar (.pBool false) then false
  else if p.1 = "_FillValue" then false
  else true

/-- A kept entry that needs no escaping stays at its position. -/
def keepInPlace (p : String × PyVal) : Bool :=
  keepEntry p && !hasSlash p.1

/-- The kept entries whose names contain `/`, re-inserted at the end under
their escaped names, in original order. -/
def escapedOf (l : PyDict PyVal) : PyDict PyVal :=
  (l.filter fun p => keepEntry p && hasSlash p.1).map fun p => (escapeSlash p.1, p.2)

theorem dkeys_append (a b : PyDict α) : dkeys (a ++ b) = dkeys a ++ dkeys b :=
  List.map_append _ a b

theorem mem_dkeys (k : String) (l : PyDict α) : k ∈ dkeys l ↔ ∃ v, (k, v) ∈ l := by
  unfold dkeys
  rw [List.mem_map]
  constructor
  · rintro ⟨⟨k', v⟩, hm, rfl⟩
    exact ⟨v, hm⟩
  · rintro ⟨v, hm⟩
    exact ⟨(k, v), hm, rfl⟩

theorem dlookup_eq_none_of_not_mem (k : String) : ∀ l : PyDict α,
    k ∉ dkeys l → dlookup k l = none := by
  intro l
  induction l with
  | nil => intro _; rfl
  | cons p t ih =>
    intro h
    obtain ⟨k', v⟩ := p
    simp only [dkeys, List.map_cons, List.mem_cons] at h
    push_neg at h
    simp only [dlookup]
    rw [if_neg (fun he => h.1 he.symm)]
    exact ih (by unfold dkeys; exact h.2)

theorem dlookup_of_mem_nodup (k : String) (v : α) : ∀ l : PyDict α,
    NodupKeys l → (k, v) ∈ l → dlookup k l = some v := by
  intro l
  induction l with
  | nil => intro _ h; cases h
  | cons p t ih =>
    intro hnd hm
    obtain ⟨k', v'⟩ := p
    have hnd' : NodupKeys t := (List.nodup_cons.mp hnd).2
    have hk' : k' ∉ dkeys t := (List.nodup_cons.mp hnd).1
    rcases List.mem_cons.mp hm with he | hm'
    · cases he
      simp [dlookup]
    · have hkne : ¬ k' = k := by
        intro he
        subst he
        exact hk' ((mem_dkeys k' t).mpr ⟨v, hm'⟩)
      simp only [dlookup, if_neg hkne]
      exact ih hnd' hm'

theorem ddel_append (k : String) (a b : PyDict α) :
    ddel k (a ++ b) = ddel k a ++ ddel k b := by
  unfold ddel
  rw [List.filter_append]

theorem ddel_of_not_mem (k : String) : ∀ l : PyDict α,
    k ∉ dkeys l → ddel k l = l := by
  intro l hk
  unfold ddel
  apply List.filter_eq_self.mpr
  intro p hp
  have : p.1 ≠ k := by
    intro he
    exact hk ((mem_dkeys k l).mpr ⟨p.2, by rw [← he]; exact hp⟩)
  simpa using this

theorem ddel_cons_self (k : String) (v : α) (t : PyDict α) :
    ddel k ((k, v) :: t) = ddel k t := by
  unfold ddel
  rw [List.filter_cons]
  simp

theorem dset_append_of_not_mem (k : String) (v : α) : ∀ d : PyDict α,
    k ∉ dkeys d → dset k v d = d ++ [(k, v)] := by
  intro d
  induction d with
  | nil => intro _; rfl
  | cons p t ih =>
    intro h
    obtain ⟨k', v'⟩ := p
    simp only [dkeys, List.map_cons, List.mem_cons] at h
    push_neg at h
    have hne : ¬ k' = k := fun he => h.1 he.symm
    simp only [dset, if_neg hne, List.cons_append, List.cons.injEq, true_and]
    exact ih (by unfold dkeys; exact h.2)

theorem escapeSlash_no_slash (s : String) : hasSlash (escapeSlash s) = false := by
  unfold hasSlash escapeSlash
  simp only [List.any_eq_false]
  intro c hc
  rcases List.mem_map.mp hc with ⟨c', _, rfl⟩
  by_cases h : c' = '/' <;> simp [h]

theorem escapeSlash_eq_self (s : String) (h : hasSlash s = false) :
    escapeSlash s = s := by
  unfold hasSlash at h
  simp only [List.any_eq_false, decide_eq_true_eq] at h
  unfold escapeSlash
  have : s.data.map (fun c => if c = '/' then '_' else c) = s.data.map id :=
    List.map_congr_left fun c hc => by simp [h c hc]
  rw [this, List.map_id]

theorem dkeys_filter_subset (f : String × α → Bool) (l : PyDict α) (k : String)
    (h : k ∈ dkeys (l.filter f)) : k ∈ dkeys l := by
  rcases (mem_dkeys k _).mp h with ⟨v, hv⟩
  exact (mem_dkeys k l).mpr ⟨v, (List.mem_filter.mp hv).1⟩

theorem dkeys_cons (k : String) (v : α) (t : PyDict α) :
    dkeys ((k, v) :: t) = k :: dkeys t := rfl

/-- The `clean_metadata` loop invariant: with the keys of `todo` still to
be visited and `done` already visited, the dictionary currently holds the
kept unescaped entries of `done` in place, the untouched `todo` entries,
and the escaped kept entries of `done` appended at the end; finishing the
loop yields exactly the cleaned dictionary — provided the keys are unique,
no dropped key contains `/`, and the escaped names do not collide. -/
theorem clean_go (md : PyDict PyVal)
    (H1 : NodupKeys md)
    (H2 : ∀ p ∈ md, keepEntry p = false → hasSlash p.1 = false)
    (H3 : (md.map fun p => escapeSlash p.1).Nodup) :
    ∀ (todo done : PyDict PyVal), md = done ++ todo →
      (dkeys todo).foldlM cleanStep
        (done.filter keepInPlace ++ (todo ++ escapedOf done)) =
        .ok (md.filter keepInPlace ++ escapedOf md) := by
  intro todo
  induction todo with
  | nil =>
    intro done he
    rw [List.append_nil] at he
    subst he
    simp [dkeys, exceptPure]
  | cons hd rest ih =>
    intro done he
    obtain ⟨k, v⟩ := hd
    have hpmem : (k, v) ∈ md := by
      rw [he]
      exact List.mem_append.mpr (Or.inr (List.mem_cons_self _ _))
    -- key uniqueness facts
    have hmdkeys : dkeys md = dkeys done ++ (k :: dkeys rest) := by
      rw [he, dkeys_append, dkeys_cons]
    have hnd : (dkeys done ++ (k :: dkeys rest)).Nodup := by
      rw [← hmdkeys]; exact H1
    have hkdone : k ∉ dkeys done := by
      intro hk
      exact (List.nodup_append.mp hnd).2.2 hk (List.mem_cons_self _ _)
    have hkrest : k ∉ dkeys rest :=
      (List.nodup_cons.mp (List.nodup_append.mp hnd).2.1).1
    -- escaped-name facts
    have hmap : md.map (fun p => escapeSlash p.1) =
        done.map (fun p => escapeSlash p.1) ++
          (escapeSlash k :: rest.map (fun p => escapeSlash p.1)) := by
      rw [he, List.map_append, List.map_cons]
    have hescnd : (done.map (fun p => escapeSlash p.1) ++
        (escapeSlash k :: rest.map (fun p => escapeSlash p.1))).Nodup := by
      rw [← hmap]; exact H3
    have hescdone : escapeSlash k ∉ done.map (fun p => escapeSlash p.1) := by
      intro hk
      exact (List.nodup_append.mp hescnd).2.2 hk (List.mem_cons_self _ _)
    have hescrest : escapeSlash k ∉ rest.map (fun p => escapeSlash p.1) :=
      (List.nodup_cons.mp (List.nodup_append.mp hescnd).2.1).1
    -- abbreviations
    set doneF := done.filter keepInPlace with hdoneF
    set esc := escapedOf done with hesc
    have hkdoneF : k ∉ dkeys doneF := fun h => hkdone (dkeys_filter_subset _ _ _ h)
    -- the current dict and the current key's value
    have hlook : dlookup k (doneF ++ ((k, v) :: rest ++ esc)) = some v := by
      rw [dlookup_append, dlookup_eq_none_of_not_mem k doneF hkdoneF]
      simp [dlookup]
    -- escaped keys of `done` never collide with slash-free original keys
    have hescKeys : ∀ k', k' ∈ dkeys esc →
        ∃ q ∈ done, (keepEntry q && hasSlash q.1) = true ∧ k' = escapeSlash q.1 := by
      intro k' hk'
      rcases (mem_dkeys k' esc).mp hk' with ⟨w, hw⟩
      rw [hesc] at hw
      unfold escapedOf at hw
      rcases List.mem_map.mp hw with ⟨q, hq, hqe⟩
      exact ⟨q, (List.mem_filter.mp hq).1, (List.mem_filter.mp hq).2,
        (congrArg Prod.fst hqe).symm⟩
    have hkesc_noslash : hasSlash k = false → k ∉ dkeys esc := by
      intro hsl hk
      rcases hescKeys k hk with ⟨q, hq, _, hkq⟩
      apply hescdone
      rw [show escapeSlash k = k from escapeSlash_eq_self k hsl, hkq]
      exact List.mem_map.mpr ⟨q, hq, rfl⟩
    have hkesc_slash : hasSlash k = true → k ∉ dkeys esc := by
      intro hsl hk
      rcases hescKeys k hk with ⟨q, _, _, hkq⟩
      rw [hkq] at hsl
      rw [escapeSlash_no_slash q.1] at hsl
      cases hsl
    have hkesc : k ∉ dkeys esc := by
      cases hsl : hasSlash k with
      | false => exact hkesc_noslash hsl
      | true => exact hkesc_slash hsl
    -- deleting the current key strips exactly its own entry
    have hddel : ddel k (doneF ++ ((k, v) :: rest ++ esc)) =
        doneF ++ (rest ++ esc) := by
      rw [ddel_append, ddel_of_not_mem k doneF hkdoneF]
      rw [show ((k, v) :: rest ++ esc : PyDict PyVal) = (k, v) :: (rest ++ esc) from rfl,
        ddel_cons_self, ddel_append, ddel_of_not_mem k rest hkrest,
        ddel_of_not_mem k esc hkesc]
    -- the three processing outcomes
    have hstep : cleanStep (doneF ++ ((k, v) :: rest ++ esc)) k =
        .ok ((done ++ [(k, v)]).filter keepInPlace ++
          (rest ++ escapedOf (done ++ [(k, v)]))) := by
      have hfd : (done ++ [(k, v)]).filter keepInPlace =
          doneF ++ (if keepInPlace (k, v) then [(k, v)] else []) := by
        rw [List.filter_append, hdoneF]
        congr 1
        simp [List.filter_cons]
      have hfe : escapedOf (done ++ [(k, v)]) =
          esc ++ (if (keepEntry (k, v) && hasSlash k) = true then
            [(escapeSlash k, v)] else []) := by
        unfold escapedOf
        rw [List.filter_append, List.map_append, hesc]
        congr 1
        simp [List.filter_cons, apply_ite]
      by_cases hsent : v = PyVal.scalar (.pBool false)
      · -- dropped: inconsistency sentinel
        have hkeepF : keepEntry (k, v) = false := by simp [keepEntry, hsent]
        have hsl : hasSlash k = false := H2 (k, v) hpmem hkeepF
        have hkeepIP : keepInPlace (k, v) = false := by simp [keepInPlace, hkeepF]
        simp only [cleanStep, hlook, exceptPure, exceptBind_ok, if_pos hsent, hddel,
          hsl, Bool.false_eq_true, if_false, hfd, hfe, hkeepIP, hkeepF,
          Bool.false_and, List.append_nil]
      · by_cases hfv : k = "_FillValue"
        · -- dropped: the _FillValue entry
          have hkeepF : keepEntry (k, v) = false := by simp [keepEntry, hfv]
          have hsl : hasSlash k = false := H2 (k, v) hpmem hkeepF
          have hkeepIP : keepInPlace (k, v) = false := by simp [keepInPlace, hkeepF]
          simp only [cleanStep, hlook, exceptPure, exceptBind_ok, if_neg hsent,
            if_pos hfv, hddel, hsl, Bool.false_eq_true, if_false, hfd, hfe,
            hkeepIP, hkeepF, Bool.false_and, List.append_nil]
        · -- kept
          have hkeepT : keepEntry (k, v) = true := by simp [keepEntry, hsent, hfv]
          cases hsl : hasSlash k with
          | false =>
            have hkeepIP : keepInPlace (k, v) = true := by
              simp [keepInPlace, hkeepT, hsl]
            simp only [cleanStep, hlook, exceptPure, exceptBind_ok, if_neg hsent,
              if_neg hfv, hsl, Bool.false_eq_true, if_false, hfd, hfe, hkeepIP,
              hkeepT, Bool.true_and, if_true, List.append_nil]
            simp [List.append_assoc]
          | true =>
            -- kept with a slash: append under the escaped name, delete original
            have hkeepIP : keepInPlace (k, v) = false := by
              simp [keepInPlace, hsl]
            have hnk : escapeSlash k ∉ dkeys (doneF ++ ((k, v) :: rest ++ esc)) := by
              rw [dkeys_append]
              intro hmem
              rcases List.mem_append.mp hmem with hmf | hm2
              · -- a done entry whose key is the escaped name
                rcases (mem_dkeys _ _).mp
                  ((mem_dkeys _ _).mpr ((mem_dkeys _ _).mp hmf)) with ⟨w, hw⟩
                have hq : (escapeSlash k, w) ∈ done := (List.mem_filter.mp hw).1
                apply hescdone
                refine List.mem_map.mpr ⟨(escapeSlash k, w), hq, ?_⟩
                exact escapeSlash_eq_self _ (escapeSlash_no_slash k)
              · rw [show ((k, v) :: rest ++ esc : PyDict PyVal) =
                  (k, v) :: (rest ++ esc) from rfl, dkeys_cons] at hm2
                rcases List.mem_cons.mp hm2 with he1 | hm3
                · rw [← he1] at hsl
                  rw [escapeSlash_no_slash k] at hsl
                  cases hsl
                rcases List.mem_append.mp (by rwa [dkeys_append] at hm3) with hmr | hme
                · rcases (mem_dkeys _ _).mp hmr with ⟨w, hw⟩
                  apply hescrest
                  refine List.mem_map.mpr ⟨(escapeSlash k, w), hw, ?_⟩
                  exact escapeSlash_eq_self _ (escapeSlash_no_slash k)
                · rcases hescKeys _ hme with ⟨q, hq, _, hkq⟩
                  apply hescdone
                  rw [hkq]
                  exact List.mem_map.mpr ⟨q, hq, rfl⟩
            have hset : dset (escapeSlash k) v (doneF ++ ((k, v) :: rest ++ esc)) =
                (doneF ++ ((k, v) :: rest ++ esc)) ++ [(escapeSlash k, v)] :=
              dset_append_of_not_mem _ _ _ hnk
            have hmem2 : dmem k ((doneF ++ ((k, v) :: rest ++ esc)) ++
                [(escapeSlash k, v)]) = true := by
              unfold dmem
              rw [dlookup_append, hlook]
              rfl
            have hkne : ¬ escapeSlash k = k := by
              intro he'
              rw [← he'] at hsl
              rw [escapeSlash_no_slash k] at hsl
              cases hsl
            have hddel2 : ddel k ((doneF ++ ((k, v) :: rest ++ esc)) ++
                [(escapeSlash k, v)]) =
                (doneF ++ (rest ++ esc)) ++ [(escapeSlash k, v)] := by
              rw [ddel_append, hddel]
              congr 1
              apply ddel_of_not_mem
              simp only [dkeys, List.map_cons, List.map_nil, List.mem_singleton]
              exact fun he' => hkne he'.symm
            simp only [cleanStep, hlook, exceptPure, exceptBind_ok, if_neg hsent,
              if_neg hfv, hsl, if_true, hset, hmem2, hddel2, hfd, hfe, hkeepIP,
              hkeepT, Bool.true_and, List.append_nil]
            simp [List.append_assoc]
    -- step succeeded; recurse with the entry moved into `done`
    rw [dkeys_cons, List.foldlM_cons, hstep, exceptBind_ok]
    exact ih (done ++ [(k, v)]) (by rw [he]; simp)

/-- Claim C7, counterexample: on `{'x/y': False}` — a genuine
boolean-false attribute that was consistent across inputs — the claim
demands the entry be preserved (under the escaped name) and the call
terminate normally; instead `clean_metadata` deletes it as the sentinel
and then crashes with `KeyError` when the escape block `del`s the
already-deleted key.  On `{'flag': False}` the genuine false value is
silently dropped. -/
theorem claim_C7_counterexample :
    clean_metadata [("x/y", .scalar (.pBool false))] = .error (.keyError "x/y") ∧
    clean_metadata [("flag", .scalar (.pBool false))] = .ok [] :=
  ⟨rfl, rfl⟩

/-- Claim C7, amended: `clean_metadata` removes every entry whose value is
plain boolean `False` — the inconsistency sentinel and genuine `False`
attributes alike — and the `_FillValue` entry, and replaces `/` with `_`
in every remaining attribute name; it terminates normally on dictionaries
(with unique, non-colliding escaped names) in which no dropped key
contains `/`, returning exactly the kept entries — unescaped ones in
place, escaped ones re-appended — while a dropped key containing `/`
raises `KeyError` (see the counterexample). -/
theorem claim_C7_clean_metadata (md : PyDict PyVal)
    (H1 : NodupKeys md)
    (H2 : ∀ p ∈ md, keepEntry p = false → hasSlash p.1 = false)
    (H3 : (md.map fun p => escapeSlash p.1).Nodup) :
    clean_metadata md = .ok (md.filter keepInPlace ++ escapedOf md) ∧
    (∀ p ∈ md, keepEntry p = true →
      dlookup (escapeSlash p.1) (md.filter keepInPlace ++ escapedOf md) = some p.2) ∧
    (∀ p ∈ md, keepEntry p = false →
      dlookup p.1 (md.filter keepInPlace ++ escapedOf md) = none) := by
  have inj := List.inj_on_of_nodup_map H3
  have hfilterNodup : NodupKeys (md.filter keepInPlace) := by
    unfold NodupKeys dkeys
    exact ((List.filter_sublist md).map Prod.fst).nodup H1
  have hescKeysEq : dkeys (escapedOf md) =
      (md.filter fun p => keepEntry p && hasSlash p.1).map fun p => escapeSlash p.1 := by
    unfold escapedOf dkeys
    rw [List.map_map]
    rfl
  have hescNodup : NodupKeys (escapedOf md) := by
    unfold NodupKeys
    rw [hescKeysEq]
    exact ((List.filter_sublist md).map fun p => escapeSlash p.1).nodup H3
  refine ⟨?_, ?_, ?_⟩
  · have h := clean_go md H1 H2 H3 md [] (by simp)
    simpa [clean_metadata, escapedOf] using h
  · intro p hp hkeep
    cases hsl : hasSlash p.1 with
    | false =>
      rw [escapeSlash_eq_self p.1 hsl, dlookup_append,
        dlookup_of_mem_nodup p.1 p.2 _ hfilterNodup
          (List.mem_filter.mpr ⟨by simpa using hp, by simp [keepInPlace, hkeep, hsl]⟩)]
    | true =>
      rw [dlookup_append]
      have h1 : dlookup (escapeSlash p.1) (md.filter keepInPlace) = none := by
        apply dlookup_eq_none_of_not_mem
        intro hk
        rcases (mem_dkeys _ _).mp hk with ⟨w, hw⟩
        have hf := List.mem_filter.mp hw
        have hnos : hasSlash (escapeSlash p.1) = false := escapeSlash_no_slash p.1
        have heq : ((escapeSlash p.1, w) : String × PyVal) = p :=
          inj hf.1 hp (escapeSlash_eq_self _ hnos)
        have hp1 : p.1 = escapeSlash p.1 := by
          rw [← heq]
          exact (escapeSlash_eq_self _ hnos).symm
        rw [hp1, escapeSlash_no_slash p.1] at hsl
        cases hsl
      rw [h1]
      exact dlookup_of_mem_nodup _ _ _ hescNodup
        (List.mem_map.mpr ⟨p, List.mem_filter.mpr ⟨hp, by simp [hkeep, hsl]⟩, rfl⟩)
  · intro p hp hkeep
    have hsl : hasSlash p.1 = false := H2 p hp hkeep
    rw [dlookup_append]
    have h1 : dlookup p.1 (md.filter keepInPlace) = none := by
      apply dlookup_eq_none_of_not_mem
      intro hk
      rcases (mem_dkeys _ _).mp hk with ⟨w, hw⟩
      have hf := List.mem_filter.mp hw
      have e1 := dlookup_of_mem_nodup p.1 w md H1 hf.1
      have e2 := dlookup_of_mem_nodup p.1 p.2 md H1 (by simpa using hp)
      have hwp : w = p.2 := Option.some.inj (e1.symm.trans e2)
      have hkIP := hf.2
      rw [hwp] at hkIP
      unfold keepInPlace at hkIP
      rw [show ((p.1, p.2) : String × PyVal) = p from by simp] at hkIP
      rw [hkeep] at hkIP
      simp at hkIP
    rw [h1]
    apply dlookup_eq_none_of_not_mem
    intro hk
    rw [hescKeysEq] at hk
    rcases List.mem_map.mp hk with ⟨q, hq, hqe⟩
    have hqf := List.mem_filter.mp hq
    have heq : q = p := inj hqf.1 hp
      (by rw [hqe]; exact (escapeSlash_eq_self _ hsl).symm)
    rw [heq] at hqf
    have := hqf.2
    rw [hkeep] at this
    simp at this

/-- A metadata dictionary with a kept slash key, a kept plain key, and a
`_FillValue` entry. -/
def cleanExample : PyDict PyVal :=
  [("a/b", .scalar (.pInt 3)), ("c", .scalar (.pInt 2)),
   ("_FillValue", .scalar (.pInt 9))]

/-- Witness for `claim_C7_clean_metadata`: `_FillValue` dropped, `c` kept
in place, `a/b` re-appended as `a_b`. -/
theorem claim_C7_witness :
    clean_metadata cleanExample =
      .ok [("c", .scalar (.pInt 2)), ("a_b", .scalar (.pInt 3))] := by
  rw [(claim_C7_clean_metadata cleanExample (by decide) (by decide) (by decide)).1]
  rfl

/-! ## Claim C1 -/

theorem dlookup_mem (k : String) (v : α) : ∀ d : PyDict α,
    dlookup k d = some v → (k, v) ∈ d := by
  intro d
  induction d with
  | nil => intro h; cases h
  | cons p t ih =>
    intro h
    obtain ⟨k', v'⟩ := p
    by_cases hk : k' = k
    · subst hk
      simp only [dlookup, if_true] at h
      cases h
      exact List.mem_cons_self _ _
    · simp only [dlookup, if_neg hk] at h
      exact List.mem_cons_of_mem _ (ih h)

theorem mem_dset_values (k : String) (v : α) (q : String × α) : ∀ d : PyDict α,
    q ∈ dset k v d → q = (k, v) ∨ q ∈ d := by
  intro d
  induction d with
  | nil =>
    intro h
    rcases List.mem_singleton.mp h with rfl
    exact Or.inl rfl
  | cons p t ih =>
    intro h
    simp only [dset] at h
    by_cases hp : p.1 = k
    · rw [if_pos hp] at h
      rcases List.mem_cons.mp h with rfl | hm
      · exact Or.inl rfl
      · exact Or.inr (List.mem_cons_of_mem _ hm)
    · rw [if_neg hp] at h
      rcases List.mem_cons.mp h with rfl | hm
      · exact Or.inr (List.mem_cons_self _ _)
      · rcases ih hm with he | hm'
        · exact Or.inl he
        · exact Or.inr (List.mem_cons_of_mem _ hm')

/-- `get_metadata` preserves key uniqueness of the metadata table. -/
theorem get_metadata_nodup (attrs : List (String × PyVal)) :
    ∀ meta : PyDict PyVal, NodupKeys meta → NodupKeys (get_metadata attrs meta) := by
  induction attrs with
  | nil => intro meta h; exact h
  | cons p rest ih =>
    intro meta h
    rw [show get_metadata (p :: rest) meta = get_metadata rest
      (match dlookup p.1 meta with
       | none => dset p.1 p.2 meta
       | some cur => if attr_eq cur p.2 then meta
         else dset p.1 (.scalar (.pBool false)) meta) from rfl]
    apply ih
    cases dlookup p.1 meta with
    | none => exact nodup_dset _ _ _ h
    | some cur =>
      by_cases he : attr_eq cur p.2
      · simp only [if_pos he]; exact h
      · simp only [if_neg he]; exact nodup_dset _ _ _ h

/-- `get_max_dims` preserves key uniqueness of the `max_dims` table. -/
theorem get_max_dims_nodup (gp : String) (dims : PyDict Nat) :
    ∀ md : PyDict Nat, NodupKeys md → NodupKeys (get_max_dims gp dims md) := by
  induction dims with
  | nil => intro md h; exact h
  | cons p rest ih =>
    intro md h
    rw [show get_max_dims gp (p :: rest) md = get_max_dims gp rest
      (match dlookup (get_group_path gp p.1) md with
       | none => dset (get_group_path gp p.1) p.2 md
       | some cur => if cur < p.2 then dset (get_group_path gp p.1) p.2 md
         else md) from rfl]
    apply ih
    cases dlookup (get_group_path gp p.1) md with
    | none => exact nodup_dset _ _ _ h
    | some cur =>
      by_cases hl : cur < p.2
      · simp only [if_pos hl]; exact nodup_dset _ _ _ h
      · simp only [if_neg hl]; exact h

/-- The invariant carried by the preprocess state: every dictionary that
is later merged has unique keys (inner attribute dictionaries included). -/
def GoodState (st : PPState) : Prop :=
  NodupKeys st.maxDims ∧
  NodupKeys st.varMetadata ∧ (∀ p ∈ st.varMetadata, NodupKeys p.2) ∧
  NodupKeys st.groupMetadata ∧ (∀ p ∈ st.groupMetadata, NodupKeys p.2)

/-- Nested metadata tables stay well-formed after `dset`ting a
well-formed inner dictionary. -/
theorem nested_nodup_dset (k : String) (v : PyDict PyVal)
    (d : PyDict (PyDict PyVal)) (h1 : NodupKeys d) (h2 : ∀ p ∈ d, NodupKeys p.2)
    (hv : NodupKeys v) :
    NodupKeys (dset k v d) ∧ ∀ p ∈ dset k v d, NodupKeys p.2 := by
  refine ⟨nodup_dset _ _ _ h1, fun p hp => ?_⟩
  rcases mem_dset_values _ _ _ _ hp with rfl | hm
  · exact hv
  · exact h2 p hm

/-- The `getD []` inner dictionary fetched for a path is well-formed. -/
theorem inner_getD_nodup (k : String) (d : PyDict (PyDict PyVal))
    (h : ∀ p ∈ d, NodupKeys p.2) : NodupKeys ((dlookup k d).getD []) := by
  cases hl : dlookup k d with
  | none => exact List.nodup_nil
  | some x => exact h (k, x) (dlookup_mem _ _ _ hl)

/-- `get_variable_data` preserves the variable-metadata invariant. -/
theorem get_variable_data_good (gp : String) : ∀ (vars : List NcVar)
    (vi : PyDict VariableInfo) (vmd : PyDict (PyDict PyVal)),
    NodupKeys vmd → (∀ p ∈ vmd, NodupKeys p.2) →
    ∀ out, get_variable_data gp vars (vi, vmd) = .ok out →
      NodupKeys out.2 ∧ ∀ p ∈ out.2, NodupKeys p.2 := by
  intro vars
  induction vars with
  | nil =>
    intro vi vmd h1 h2 out hout
    have : (Except.ok (vi, vmd) : Except Err (PyDict VariableInfo × PyDict (PyDict PyVal))) = .ok out := hout
    cases this
    exact ⟨h1, h2⟩
  | cons v rest ih =>
    intro vi vmd h1 h2 out hout
    unfold get_variable_data at hout
    rw [List.foldlM_cons] at hout
    simp only [] at hout
    cases hvc : viCheck (get_group_path gp v.name) (VariableInfo.build v gp) vi with
    | error e =>
      rw [hvc] at hout
      simp only [exceptBind_err] at hout
      cases hout
    | ok vi' =>
      rw [hvc] at hout
      simp only [exceptPure, exceptBind_ok] at hout
      have hstep := nested_nodup_dset (get_group_path gp v.name)
        (get_metadata v.attrs ((dlookup (get_group_path gp v.name) vmd).getD []))
        vmd h1 h2
        (get_metadata_nodup _ _ (inner_getD_nodup _ _ h2))
      exact ih _ _ hstep.1 hstep.2 out hout

mutual
/-- `process_groups` preserves the dictionary invariant. -/
theorem process_groups_good : ∀ (g : NcGroup) (st : PPState), GoodState st →
    ∀ st', process_groups g st = .ok st' → GoodState st'
  | .mk path dims vars attrs children, st, hst, st', h => by
    unfold process_groups at h
    cases hvd : get_variable_data path vars (st.varInfo, st.varMetadata) with
    | error e =>
      rw [hvd] at h
      simp only [exceptBind_err] at h
      cases h
    | ok vd =>
      rw [hvd] at h
      simp only [exceptBind_ok] at h
      have hgmd0 : NodupKeys (if dmem path st.groupMetadata then st.groupMetadata
          else dset path [] st.groupMetadata) ∧
          ∀ p ∈ (if dmem path st.groupMetadata then st.groupMetadata
            else dset path [] st.groupMetadata), NodupKeys p.2 := by
        by_cases hm : dmem path st.groupMetadata
        · rw [if_pos hm]
          exact ⟨hst.2.2.2.1, hst.2.2.2.2⟩
        · rw [if_neg hm]
          exact nested_nodup_dset path [] st.groupMetadata hst.2.2.2.1
            hst.2.2.2.2 List.nodup_nil
      have hgmd := nested_nodup_dset path
        (get_metadata attrs ((dlookup path (if dmem path st.groupMetadata
          then st.groupMetadata else dset path [] st.groupMetadata)).getD []))
        _ hgmd0.1 hgmd0.2
        (get_metadata_nodup _ _ (inner_getD_nodup _ _ hgmd0.2))
      have hvg := get_variable_data_good path vars st.varInfo st.varMetadata
        hst.2.1 hst.2.2.1 vd hvd
      exact process_forest_good children _
        ⟨get_max_dims_nodup path dims _ hst.1, hvg.1, hvg.2, hgmd.1, hgmd.2⟩ st' h

/-- `process_forest` preserves the dictionary invariant. -/
theorem process_forest_good : ∀ (f : NcForest) (st : PPState), GoodState st →
    ∀ st', process_forest f st = .ok st' → GoodState st'
  | .nil, st, hst, st', h => by
    have h' : (Except.ok st : Except Err PPState) = .ok st' := h
    cases h'
    exact hst
  | .cons g rest, st, hst, st', h => by
    unfold process_forest at h
    cases hg : process_groups g st with
    | error e =>
      rw [hg] at h
      simp only [exceptBind_err] at h
      cases h
    | ok st1 =>
      rw [hg] at h
      simp only [exceptBind_ok] at h
      exact process_forest_good rest st1 (process_groups_good g st hst st1 hg) st' h
end

/-- The state built by processing a list of granules from the empty state
satisfies the dictionary invariant. -/
theorem processFiles_good (files : List NcGroup) :
    ∀ st', processFiles files = .ok st' → GoodState st' := by
  have hstart : GoodState emptyPPState := by
    refine ⟨List.nodup_nil, List.nodup_nil, ?_, List.nodup_nil, ?_⟩ <;>
      (intro p hp; cases hp)
  suffices hgen : ∀ (fs : List NcGroup) (st : PPState), GoodState st →
      ∀ st', fs.foldlM (fun st f => process_groups f st) st = .ok st' → GoodState st' by
    intro st' h
    exact hgen files emptyPPState hstart st' h
  intro fs
  induction fs with
  | nil =>
    intro st hst st' h
    have h' : (Except.ok st : Except Err PPState) = .ok st' := h
    cases h'
    exact hst
  | cons f rest ih =>
    intro st hst st' h
    rw [List.foldlM_cons] at h
    cases hf : process_groups f st with
    | error e =>
      rw [hf] at h
      simp only [exceptBind_err] at h
      cases h
    | ok st1 =>
      rw [hf] at h
      simp only [exceptBind_ok] at h
      exact ih st1 (process_groups_good f st hst st1 hf) st' h

/-- Folding `merge_max_dims` into an accumulator that shares no keys with
the (unique-keyed) worker dictionary appends the worker entries. -/
theorem merge_max_dims_fresh : ∀ (d acc : PyDict Nat),
    (∀ p ∈ d, dmem p.1 acc = false) → NodupKeys d →
    merge_max_dims acc d = acc ++ d := by
  intro d
  induction d with
  | nil =>
    intro acc _ _
    simp [merge_max_dims]
  | cons p rest ih =>
    intro acc hfresh hnd
    obtain ⟨k0, v0⟩ := p
    have hmem0 : dmem k0 acc = false := hfresh (k0, v0) (List.mem_cons_self _ _)
    have hlk : dlookup k0 acc = none := by
      unfold dmem at hmem0
      cases hl : dlookup k0 acc with
      | none => rfl
      | some w => rw [hl] at hmem0; cases hmem0
    have hnotmem : k0 ∉ dkeys acc := by
      intro hk
      rw [(dmem_iff k0 acc).mpr hk] at hmem0
      cases hmem0
    have hk0rest : k0 ∉ dkeys rest := (List.nodup_cons.mp hnd).1
    have hndrest : NodupKeys rest := (List.nodup_cons.mp hnd).2
    have h1 : merge_max_dims acc ((k0, v0) :: rest) =
        merge_max_dims (dset k0 v0 acc) rest := by
      rw [show merge_max_dims acc ((k0, v0) :: rest) = merge_max_dims
        (match dlookup k0 acc with
         | none => dset k0 v0 acc
         | some cur => if cur < v0 then dset k0 v0 acc else acc) rest from rfl, hlk]
    rw [h1, dset_append_of_not_mem k0 v0 acc hnotmem]
    rw [ih (acc ++ [(k0, v0)]) ?_ hndrest]
    · simp
    · intro q hq
      have hq1 : dmem q.1 acc = false := hfresh q (List.mem_cons_of_mem _ hq)
      have hqk0 : ¬ q.1 = k0 := by
        intro he
        apply hk0rest
        rw [← he]
        exact (mem_dkeys q.1 rest).mpr ⟨q.2, by simpa using hq⟩
      unfold dmem at hq1 ⊢
      rw [dlookup_append]
      cases hl : dlookup q.1 acc with
      | none =>
        simp only [dlookup]
        rw [if_neg (fun he => hqk0 he.symm)]
        rfl
      | some w => rw [hl] at hq1; cases hq1

/-- Merging (unique-keyed) attributes into a disjoint accumulator appends
them unchanged — the first-sight branch of `get_metadata` always fires. -/
theorem get_metadata_fresh : ∀ (attrs acc : PyDict PyVal),
    (∀ p ∈ attrs, dmem p.1 acc = false) → NodupKeys attrs →
    get_metadata attrs acc = acc ++ attrs := by
  intro attrs
  induction attrs with
  | nil =>
    intro acc _ _
    simp [get_metadata]
  | cons p rest ih =>
    intro acc hfresh hnd
    obtain ⟨k0, v0⟩ := p
    have hmem0 : dmem k0 acc = false := hfresh (k0, v0) (List.mem_cons_self _ _)
    have hlk : dlookup k0 acc = none := by
      unfold dmem at hmem0
      cases hl : dlookup k0 acc with
      | none => rfl
      | some w => rw [hl] at hmem0; cases hmem0
    have hnotmem : k0 ∉ dkeys acc := by
      intro hk
      rw [(dmem_iff k0 acc).mpr hk] at hmem0
      cases hmem0
    have hk0rest : k0 ∉ dkeys rest := (List.nodup_cons.mp hnd).1
    have hndrest : NodupKeys rest := (List.nodup_cons.mp hnd).2
    have h1 : get_metadata ((k0, v0) :: rest) acc =
        get_metadata rest (dset k0 v0 acc) := by
      rw [show get_metadata ((k0, v0) :: rest) acc = get_metadata rest
        (match dlookup k0 acc with
         | none => dset k0 v0 acc
         | some cur => if attr_eq cur v0 then acc
           else dset k0 (.scalar (.pBool false)) acc) from rfl, hlk]
    rw [h1, dset_append_of_not_mem k0 v0 acc hnotmem]
    rw [ih (acc ++ [(k0, v0)]) ?_ hndrest]
    · simp
    · intro q hq
      have hq1 : dmem q.1 acc = false := hfresh q (List.mem_cons_of_mem _ hq)
      have hqk0 : ¬ q.1 = k0 := by
        intro he
        apply hk0rest
        rw [← he]
        exact (mem_dkeys q.1 rest).mpr ⟨q.2, by simpa using hq⟩
      unfold dmem at hq1 ⊢
      rw [dlookup_append]
      cases hl : dlookup q.1 acc with
      | none =>
        simp only [dlookup]
        rw [if_neg (fun he => hqk0 he.symm)]
        rfl
      | some w => rw [hl] at hq1; cases hq1

/-- Merging a (well-formed) nested metadata table into a disjoint
accumulator appends it unchanged. -/
theorem merge_metadata_fresh : ∀ (m acc : PyDict (PyDict PyVal)),
    (∀ p ∈ m, dmem p.1 acc = false) → NodupKeys m → (∀ p ∈ m, NodupKeys p.2) →
    merge_metadata acc m = acc ++ m := by
  intro m
  induction m with
  | nil =>
    intro acc _ _ _
    simp [merge_metadata]
  | cons p rest ih =>
    intro acc hfresh hnd hinner
    obtain ⟨k0, attrs0⟩ := p
    have hmem0 : dmem k0 acc = false := hfresh (k0, attrs0) (List.mem_cons_self _ _)
    have hlk : dlookup k0 acc = none := by
      unfold dmem at hmem0
      cases hl : dlookup k0 acc with
      | none => rfl
      | some w => rw [hl] at hmem0; cases hmem0
    have hnotmem : k0 ∉ dkeys acc := by
      intro hk
      rw [(dmem_iff k0 acc).mpr hk] at hmem0
      cases hmem0
    have hk0rest : k0 ∉ dkeys rest := (List.nodup_cons.mp hnd).1
    have hndrest : NodupKeys rest := (List.nodup_cons.mp hnd).2
    have h1 : merge_metadata acc ((k0, attrs0) :: rest) =
        merge_metadata (dset k0 (get_metadata attrs0 ((dlookup k0 acc).getD [])) acc)
          rest := rfl
    rw [h1, hlk]
    have hattrs : get_metadata attrs0 ((none : Option (PyDict PyVal)).getD []) =
        attrs0 := by
      rw [show ((none : Option (PyDict PyVal)).getD []) = [] from rfl]
      rw [get_metadata_fresh attrs0 [] (fun p _ => rfl)
        (hinner (k0, attrs0) (List.mem_cons_self _ _))]
      rfl
    rw [hattrs, dset_append_of_not_mem k0 attrs0 acc hnotmem]
    rw [ih (acc ++ [(k0, attrs0)]) ?_ hndrest
      (fun q hq => hinner q (List.mem_cons_of_mem _ hq))]
    · simp
    · intro q hq
      have hq1 : dmem q.1 acc = false := hfresh q (List.mem_cons_of_mem _ hq)
      have hqk0 : ¬ q.1 = k0 := by
        intro he
        apply hk0rest
        rw [← he]
        exact (mem_dkeys q.1 rest).mpr ⟨q.2, by simpa using hq⟩
      unfold dmem at hq1 ⊢
      rw [dlookup_append]
      cases hl : dlookup q.1 acc with
      | none =>
        simp only [dlookup]
        rw [if_neg (fun he => hqk0 he.symm)]
        rfl
      | some w => rw [hl] at hq1; cases hq1

/-- `merge_max_dims` from the empty accumulator is the identity. -/
theorem merge_max_dims_nil (d : PyDict Nat) (h : NodupKeys d) :
    merge_max_dims [] d = d := by
  rw [merge_max_dims_fresh d [] (fun p _ => rfl) h]
  rfl

/-- `merge_metadata` from the empty accumulator is the identity. -/
theorem merge_metadata_nil (m : PyDict (PyDict PyVal)) (h : NodupKeys m)
    (hinner : ∀ p ∈ m, NodupKeys p.2) :
    merge_metadata [] m = m := by
  rw [merge_metadata_fresh m [] (fun p _ => rfl) h hinner]
  rfl

/-- A worker given no files reports no result. -/
theorem runWorkerPre_nil : runWorkerPre ([] : List NcGroup) = .ok none := rfl

/-- Workers that drained no files all report `none`. -/
theorem mapM_runWorkerPre_replicate : ∀ k : Nat,
    (List.replicate k ([] : List NcGroup)).mapM runWorkerPre =
      .ok (List.replicate k none) := by
  intro k
  induction k with
  | zero => rfl
  | succ n ih =>
    rw [List.replicate_succ, List.mapM_cons, runWorkerPre_nil]
    simp only [exceptBind_ok]
    rw [ih]
    simp only [exceptBind_ok, exceptPure]
    rw [List.replicate_succ]

/-- Dropping the `none` reports of idle workers leaves nothing. -/
theorem filterMap_id_replicate_none : ∀ k,
    (List.replicate k (none : Option WorkerResult)).filterMap id = [] := by
  intro k
  induction k with
  | zero => rfl
  | succ n ih => simp [List.replicate_succ, ih]

/-! ### Claim C1: the settled statements -/

/-- Claim C1, counterexample: the claim asks that for every
schema-compatible input list the multi-worker preprocess output agree
field-wise (up to set/map equality) with the single-core output for every
worker count, *including when different workers see different subsets of
groups and variables*.  Two refutations, both on inputs that single-core
preprocessing accepts: (a) when the two workers see granules with
different child groups, `_run_multi_core` raises
`RuntimeError('Groups are inconsistent between granules')` because it
requires exact `group_list` equality; (b) when the second worker alone
sees the extra variable `wind`, its descriptor is silently dropped — the
accumulator-update branch only fires when the *accumulator* has keys the
new result lacks — so the merged `var_info` disagrees with the single-core
one even as sets/maps. -/
theorem claim_C1_counterexample :
    ((∃ r, runSingleCore [groupedGranule1, groupedGranule2] = .ok r) ∧
      runMultiCore [[groupedGranule1], [groupedGranule2]] =
        .error (.runtimeError "Groups are inconsistent between granules")) ∧
    ∃ r1 r2, runSingleCore [flatGranule1, flatGranule2] = .ok r1 ∧
      runMultiCore [[flatGranule1], [flatGranule2]] = .ok r2 ∧
      ppAgree r1 r2 = false := by
  refine ⟨⟨⟨_, rfl⟩, rfl⟩, _, _, rfl, rfl, ?_⟩
  decide

/-- Claim C1, amended: multi-worker preprocessing agrees with single-core
preprocessing — in every field, and in fact up to exact equality — when a
single worker drains the whole queue: for every worker count `k + 1`, if
one worker processes all files (in their original order) and the `k`
others process none, the coordinator's output equals the single-core
output whenever the latter succeeds.  (By `claim_C1_counterexample`, the
agreement claimed for *arbitrary* partitions of the work fails.) -/
theorem claim_C1_amended (files : List NcGroup) (r : PPResult) (k : Nat)
    (h : runSingleCore files = .ok r) :
    runMultiCore (files :: List.replicate k []) = .ok r := by
  cases files with
  | nil =>
    rw [show runSingleCore ([] : List NcGroup) = .error .indexError from rfl] at h
    cases h
  | cons f fs =>
    unfold runSingleCore at h
    cases hpf : processFiles (f :: fs) with
    | error e => rw [hpf] at h; simp only [exceptBind_err] at h; cases h
    | ok st =>
      rw [hpf] at h
      simp only [exceptBind_ok] at h
      cases hfin : finalizeHistory (strSort st.groupList) st.groupMetadata with
      | error e => rw [hfin] at h; simp only [exceptBind_err] at h; cases h
      | ok gmd =>
        rw [hfin] at h
        simp only [exceptBind_ok, exceptPure] at h
        have hgood := processFiles_good (f :: fs) st hpf
        have hw : runWorkerPre (f :: fs) = .ok (some
            { group_list := strSort st.groupList, max_dims := st.maxDims,
              var_info := st.varInfo, var_metadata := st.varMetadata,
              group_metadata := st.groupMetadata }) := by
          unfold runWorkerPre
          rw [hpf]
          simp only [exceptBind_ok, List.isEmpty_cons, exceptPure]
          rfl
        have hmap : ((f :: fs) :: List.replicate k []).mapM runWorkerPre =
            .ok (some
              { group_list := strSort st.groupList, max_dims := st.maxDims,
                var_info := st.varInfo, var_metadata := st.varMetadata,
                group_metadata := st.groupMetadata } :: List.replicate k none) := by
          rw [List.mapM_cons, hw]
          simp only [exceptBind_ok]
          rw [mapM_runWorkerPre_replicate k]
          simp only [exceptBind_ok, exceptPure]
        unfold runMultiCore
        rw [hmap]
        simp only [exceptBind_ok, exceptPure, filterMap_id_replicate_none,
          List.filterMap_cons, id]
        rw [List.foldlM_cons]
        rw [show mergeResultStep { gl := none, vi := none, md := [], vmd := [], gmd := [] }
            { group_list := strSort st.groupList, max_dims := st.maxDims,
              var_info := st.varInfo, var_metadata := st.varMetadata,
              group_metadata := st.groupMetadata } =
          .ok { gl := some (strSort st.groupList), vi := some st.varInfo,
                md := merge_max_dims [] st.maxDims,
                vmd := merge_metadata [] st.varMetadata,
                gmd := merge_metadata [] st.groupMetadata } from rfl]
        simp only [exceptBind_ok, List.foldlM_nil, exceptPure]
        rw [merge_max_dims_nil st.maxDims hgood.1,
            merge_metadata_nil st.varMetadata hgood.2.1 hgood.2.2.1,
            merge_metadata_nil st.groupMetadata hgood.2.2.2.1 hgood.2.2.2.2]
        rw [hfin]
        simp only [exceptBind_ok, exceptPure, Option.getD_some]
        exact h

/-- Witness for `claim_C1_amended`: one granule, one busy worker and one
idle worker. -/
theorem claim_C1_witness :
    ∃ r, runSingleCore [flatGranule1] = .ok r ∧
      runMultiCore ([flatGranule1] :: List.replicate 1 []) = .ok r := by
  refine ⟨_, rfl, claim_C1_amended [flatGranule1] _ 1 rfl⟩

end Concise
